import Mathlib

set_option autoImplicit false
set_option maxHeartbeats 2000000
set_option maxRecDepth 8000

/-!
Verification development for the NFTS per-record signer.

The functions below are a shallow embedding of the Python sources
`sign_xml_soap_nfts_corrigido_com_debug.py` and
`sign_xml_soap_nfts_novos_campos.py`: the per-kind value normalizers, the
canonical `tpNFTS` builder, its serialization to UTF-8 bytes, the signing
and verification flow for one record unit, and the record reassembly.

Modelling conventions:
* Text is `List Char`; XML element tags are `String` local names (the
  sources match children by local name, ignoring namespaces).
* Python `str.strip` strips the Unicode whitespace code points listed in
  `isPySpace`; `str.lower` is modelled on ASCII letters, which agrees with
  Python on membership tests against the ASCII keyword set used here.
* Python `str.isdigit` and `int` are modelled on ASCII digits, the
  superscript digits U+00B2/U+00B3/U+00B9 (for which `isdigit` is true but
  `int` raises) and the Arabic-Indic digits U+0660..U+0669.
* Python `float` parsing is modelled by an exact decimal-literal parser
  (optional sign, digits, optional point and exponent; `inf`, `nan` and
  digit-group underscores are outside the model), and the IEEE-754 double
  is modelled by the exact decimal value: `"{:.2f}".format` becomes decimal
  round-half-even at two places and `str(float)` becomes the exact decimal
  rendering with the repr fixed/scientific threshold.  This agrees with
  CPython on short decimal inputs such as every value exercised here.
-/

abbrev Str := List Char

def S (s : String) : Str := s.data

/-- Code points stripped by Python `str.strip()`. -/
def isPySpace (c : Char) : Bool :=
  c.toNat ∈ [9, 10, 11, 12, 13, 28, 29, 30, 31, 32, 133, 160, 5760,
    8192, 8193, 8194, 8195, 8196, 8197, 8198, 8199, 8200, 8201, 8202,
    8232, 8233, 8239, 8287, 12288]

/-- The non-breaking space replaced by the normalizers. -/
def nbspChar : Char := Char.ofNat 160

/-- One character of `text.replace(nbsp, ' ')`. -/
def nbspFix (c : Char) : Char := if c = nbspChar then ' ' else c

/-- One character of `.replace(nbsp, ' ').replace(',', '.')`. -/
def commaNbspFix (c : Char) : Char :=
  if nbspFix c = ',' then '.' else nbspFix c

/-- Python `str.strip()`. -/
def pyStrip (l : Str) : Str :=
  ((l.dropWhile isPySpace).reverse.dropWhile isPySpace).reverse

/-- `text.replace(nbsp, ' ').strip()`, the cleaning step shared by the
normalizers. -/
def pyClean (l : Str) : Str := pyStrip (l.map nbspFix)

/-- `text.replace(nbsp, ' ').replace(',', '.').strip()`, the cleaning step
of `normalize_float_value`. -/
def pyCleanF (l : Str) : Str := pyStrip (l.map commaNbspFix)

/-- Python `str.lower`, modelled on ASCII letters. -/
def pyLowerChar (c : Char) : Char :=
  if 'A' ≤ c ∧ c ≤ 'Z' then Char.ofNat (c.toNat + 32) else c

/-- Python `str.isdigit` on one character (restricted model, see header). -/
def pyIsDigitChar (c : Char) : Bool :=
  (48 ≤ c.toNat ∧ c.toNat ≤ 57) ∨ c.toNat ∈ [178, 179, 185] ∨
    (1632 ≤ c.toNat ∧ c.toNat ≤ 1641)

/-- The decimal value Python `int`/`float` accept for one character
(restricted model, see header); `none` for the superscript digits, which
`isdigit` accepts but `int()` rejects. -/
def pyIntDigitVal (c : Char) : Option ℕ :=
  if 48 ≤ c.toNat ∧ c.toNat ≤ 57 then some (c.toNat - 48)
  else if 1632 ≤ c.toNat ∧ c.toNat ≤ 1641 then some (c.toNat - 1632)
  else none

/-- Python `int(s)` on an all-digit string. -/
def pyIntParse (l : Str) : Option ℕ :=
  l.foldl (fun acc c => acc.bind fun v => (pyIntDigitVal c).map fun d => 10 * v + d)
    (some 0)

/-- The decimal digit character for `d < 10`. -/
def digitChar (d : ℕ) : Char := Char.ofNat (48 + d)

/-- Decimal rendering with explicit fuel (structural recursion; any fuel
above the number of digits is enough). -/
def natRenderAux : ℕ → ℕ → Str
  | 0, _ => []
  | fuel + 1, n =>
    if n < 10 then [digitChar n]
    else natRenderAux fuel (n / 10) ++ [digitChar (n % 10)]

/-- Decimal rendering of a natural number, as Python `str` renders `int`
and the digit sequences of `float`. -/
def natRender (n : ℕ) : Str := natRenderAux (n + 1) n

/-- Maximal run of decimal digits: accumulated value, digit count, rest. -/
def takeDigs : Str → ℕ → ℕ → ℕ × ℕ × Str
  | [], v, c => (v, c, [])
  | ch :: rest, v, c =>
    match pyIntDigitVal ch with
    | some d => takeDigs rest (10 * v + d) (c + 1)
    | none => (v, c, ch :: rest)

/-- Leading sign of a Python float literal. -/
def splitSign : Str → Bool × Str
  | [] => (false, [])
  | c :: r =>
    if c = '-' then (true, r)
    else if c = '+' then (false, r)
    else (false, c :: r)

/-- Exponent suffix of a Python float literal; `some 0` on the empty rest. -/
def parseExp (l : Str) : Option ℤ :=
  match l with
  | [] => some 0
  | e :: rest =>
    if e = 'e' ∨ e = 'E' then
      let p := splitSign rest
      match takeDigs p.2 0 0 with
      | (ev, ec, r2) =>
        if ec = 0 then none
        else if r2 = [] then some (if p.1 then -(ev : ℤ) else (ev : ℤ))
        else none
    else none

/-- Python `float(s)` on a cleaned string, as sign, mantissa and power of
ten: `some (neg, m, p)` represents the value `(-1)^neg * m * 10^p`. -/
def pyFloatParse (s : Str) : Option (Bool × ℕ × ℤ) :=
  let p := splitSign s
  match takeDigs p.2 0 0 with
  | (iv, ic, r1) =>
    match r1 with
    | c :: r2 =>
      if c = '.' then
        match takeDigs r2 0 0 with
        | (fv, fc, r3) =>
          if ic + fc = 0 then none
          else
            match parseExp r3 with
            | some e => some (p.1, iv * 10 ^ fc + fv, e - fc)
            | none => none
      else
        if ic = 0 then none
        else
          match parseExp (c :: r2) with
          | some e => some (p.1, iv, e)
          | none => none
    | [] => if ic = 0 then none else some (p.1, iv, 0)

/-- Fuelled core of `stripTens` (any fuel above the number of digits is
enough). -/
def stripTensAux : ℕ → ℕ → ℕ × ℕ
  | 0, m => (m, 0)
  | fuel + 1, m =>
    if m = 0 then (0, 0)
    else if m % 10 = 0 then
      let p := stripTensAux fuel (m / 10)
      (p.1, p.2 + 1)
    else (m, 0)

/-- Strip factors of ten: `stripTens m = (c, k)` with `m = c * 10^k` and,
for `m ≠ 0`, `¬ 10 ∣ c`. -/
def stripTens (m : ℕ) : ℕ × ℕ := stripTensAux (m + 1) m

/-- The sign prefix of a rendered float. -/
def signStr (neg : Bool) : Str := if neg then ['-'] else []

/-- Two zero-padded decimal digits, for `x < 100`. -/
def pad2 (x : ℕ) : Str := [digitChar (x / 10), digitChar (x % 10)]

/-- Round-half-even division, as decimal formatting rounds. -/
def roundHalfEven (m k : ℕ) : ℕ :=
  let q := m / k
  let r := m % k
  if 2 * r > k ∨ (2 * r = k ∧ q % 2 = 1) then q + 1 else q

/-- The value scaled to hundredths with round-half-even, the integer
rendered by `"{:.2f}"`. -/
def scaledTwo (m : ℕ) (p : ℤ) : ℕ :=
  if 0 ≤ p + 2 then m * 10 ^ (p + 2).toNat
  else roundHalfEven m (10 ^ (-(p + 2)).toNat)

/-- `"{:.2f}".format` of the value `(-1)^neg * m * 10^p` (decimal model of
the double, see header). -/
def formatTwo (neg : Bool) (m : ℕ) (p : ℤ) : Str :=
  signStr neg ++ natRender (scaledTwo m p / 100) ++ '.' :: pad2 (scaledTwo m p % 100)

/-- Minimum-two-digit exponent rendering of Python float repr. -/
def expDigits (v : ℕ) : Str := if v < 10 then '0' :: natRender v else natRender v

/-- Python `str(float)` of `(-1)^neg * m * 10^p` for `m` already stripped of
trailing ten factors (decimal model of the double, see header): fixed
notation while the decimal exponent lies in `[-4, 16)`, scientific
otherwise. -/
def reprCore (neg : Bool) (m : ℕ) (p : ℤ) : Str :=
  if m = 0 then signStr neg ++ S "0.0"
  else
    let ds := natRender m
    let n : ℕ := ds.length
    let decExp : ℤ := p + n - 1
    if -4 ≤ decExp ∧ decExp < 16 then
      if 0 ≤ p then signStr neg ++ ds ++ List.replicate p.toNat '0' ++ S ".0"
      else
        let k := (-p).toNat
        if k < n then signStr neg ++ ds.take (n - k) ++ '.' :: ds.drop (n - k)
        else signStr neg ++ S "0." ++ List.replicate (k - n) '0' ++ ds
    else
      let mantStr :=
        match ds with
        | [d1] => [d1]
        | d1 :: rest => d1 :: '.' :: rest
        | [] => ds
      let eAbs := decExp.natAbs
      signStr neg ++ mantStr ++ 'e' ::
        ((if decExp < 0 then ['-'] else ['+']) ++ expDigits eAbs)

/-- The normalized mantissa/exponent pair: zero is canonical `(0, 0)`,
otherwise trailing ten factors move into the exponent. -/
def normLitPair (m : ℕ) (p : ℤ) : ℕ × ℤ :=
  if m = 0 then (0, 0) else ((stripTens m).1, p + (stripTens m).2)

/-- Python `str(float)` of a raw parsed literal. -/
def pyReprFloat (neg : Bool) (m : ℕ) (p : ℤ) : Str :=
  reprCore neg (normLitPair m p).1 (normLitPair m p).2

/-! ## The normalizers (`Normalizações` section of both sources) -/

/-- `normalize_numeric_string`: strip leading zeros from all-digit strings
(identical in both sources). -/
def normalize_numeric_string (t : Option Str) : Str :=
  match t with
  | none => []
  | some s =>
    let c := pyClean s
    if c ≠ [] ∧ c.all pyIsDigitChar then
      match pyIntParse c with
      | some n => natRender n
      | none => c
    else c

/-- `normalize_serie_nfts` of `sign_xml_soap_nfts_corrigido_com_debug.py`:
clean, then right-pad with spaces to width 5, truncating. -/
def normalize_serie_nfts (t : Option Str) : Str :=
  match t with
  | none => S "     "
  | some s => (pyClean s ++ S "     ").take 5

/-- `normalize_serie_nfts` of `sign_xml_soap_nfts_novos_campos.py`: clean
only, no padding. -/
def normalize_serie_nfts_novos (t : Option Str) : Str :=
  match t with
  | none => S "     "
  | some s => pyClean s

/-- `normalize_float_value` (identical in both sources): replace comma by
period, clean, parse as float; on success format with two decimals
(`format_decimals = true`) or with `str(float)` (`format_decimals = false`),
on failure return the cleaned text. -/
def normalize_float_value (t : Option Str) (format_decimals : Bool) : Str :=
  match t with
  | none => []
  | some s =>
    let c := pyCleanF s
    match pyFloatParse c with
    | some (neg, m, p) =>
      if format_decimals then formatTwo neg m p else pyReprFloat neg m p
    | none => c

/-- The keyword set of `normalize_boolean_value`. -/
def boolTrueWords : List Str :=
  [S "true", S "1", S "s", S "sim", S "t", S "y", S "yes"]

/-- `normalize_boolean_value` (identical in both sources). -/
def normalize_boolean_value (t : Option Str) : Str :=
  match t with
  | none => S "false"
  | some s =>
    if (pyClean s).map pyLowerChar ∈ boolTrueWords then S "true" else S "false"

example : normalize_numeric_string (some (S "0042")) = S "42" := by decide
example : normalize_numeric_string (some (S "000")) = S "0" := by decide
example : normalize_serie_nfts (some (S "AB")) = S "AB   " := by decide
example : normalize_serie_nfts (some (S "ABCDEFG")) = S "ABCDE" := by decide
example : normalize_float_value (some (S " 3,5 ")) true = S "3.50" := by decide
example : normalize_float_value (some (S "1.234,5")) true = S "1.234.5" := by decide
example : normalize_float_value (some (S "03.025")) false = S "3.025" := by decide
example : normalize_boolean_value (some (S "Sim")) = S "true" := by decide
example : normalize_boolean_value (some (S "")) = S "false" := by decide
example : normalize_boolean_value (some (S "NAO")) = S "false" := by decide

/-! ## XML element model

The sources work on `lxml` element trees; an element is modelled by its
local tag name, optional text and child list (`find_child` matches by
local name, namespace-agnostic, so tags are plain local names here). -/

inductive XElem where
  | node (tag : String) (text : Option Str) (children : List XElem)

def XElem.tag : XElem → String
  | .node t _ _ => t

def XElem.text : XElem → Option Str
  | .node _ tx _ => tx

def XElem.children : XElem → List XElem
  | .node _ _ ch => ch

/-- `original_child.text or ""`. -/
def textD (c : XElem) : Str := c.text.getD []

/-- First element of a child list whose local name matches. -/
def findChildL (t : String) : List XElem → Option XElem
  | [] => none
  | c :: rest => if c.tag = t then some c else findChildL t rest

/-- `find_child`: first child whose local name matches. -/
def find_child (n : XElem) (t : String) : Option XElem :=
  findChildL t n.children

/-- Remove the first child with the given tag (`clean_tp.remove(assin)`). -/
def removeFirst (t : String) : List XElem → List XElem
  | [] => []
  | c :: rest => if c.tag = t then rest else c :: removeFirst t rest

/-- The deep copy with its `Assinatura` child removed, as prepared at the
top of `build_tpNFTS_bytes`. -/
def stripAssin (n : XElem) : XElem :=
  XElem.node n.tag n.text (removeFirst "Assinatura" n.children)

/-- A record unit with one extra child appended at the end. -/
def appendChild (u c : XElem) : XElem :=
  XElem.node u.tag u.text (u.children ++ [c])

/-! ## Schema descriptor and canonical builder -/

mutual
inductive SchemaDef where
  | leaf (kind : String)
  | group (entries : SchemaEntries)
inductive SchemaEntries where
  | nil
  | cons (name : String) (d : SchemaDef) (rest : SchemaEntries)
end

def namesOf : SchemaEntries → List String
  | .nil => []
  | .cons t _ rest => t :: namesOf rest

/-- Normalizer dispatch of `build_fragment` in
`sign_xml_soap_nfts_corrigido_com_debug.py` (the `else` branch covers
`"str"`, `"str_opt"` and any other tag: plain cleaning). -/
def normKindDebug (kind : String) (s : Str) : Str :=
  if kind = "num_str" then normalize_numeric_string (some s)
  else if kind = "float_currency" then normalize_float_value (some s) true
  else if kind = "float" then normalize_float_value (some s) false
  else if kind = "bool" then normalize_boolean_value (some s)
  else if kind = "serie" then normalize_serie_nfts (some s)
  else pyClean s

/-- Normalizer dispatch of `build_fragment` in
`sign_xml_soap_nfts_novos_campos.py`; identical except for the unpadded
`normalize_serie_nfts`. -/
def normKindNovos (kind : String) (s : Str) : Str :=
  if kind = "num_str" then normalize_numeric_string (some s)
  else if kind = "float_currency" then normalize_float_value (some s) true
  else if kind = "float" then normalize_float_value (some s) false
  else if kind = "bool" then normalize_boolean_value (some s)
  else if kind = "serie" then normalize_serie_nfts_novos (some s)
  else pyClean s

mutual
/-- One entry of `build_fragment`: look up the child by name; skip if
absent; for a leaf normalize and skip empty results; for a group recurse
and skip empty fragments. -/
def buildOne (norm : String → Str → Str) (node : XElem) (t : String) :
    SchemaDef → List XElem
  | .leaf kind =>
    match find_child node t with
    | none => []
    | some c =>
      let fin := norm kind (textD c)
      if fin = [] then [] else [XElem.node t (some fin) []]
  | .group sub =>
    match find_child node t with
    | none => []
    | some c =>
      let nested := buildEntries norm c sub
      if nested.isEmpty then [] else [XElem.node t none nested]
/-- `build_fragment` over a whole ordered map. -/
def buildEntries (norm : String → Str → Str) (node : XElem) :
    SchemaEntries → List XElem
  | .nil => []
  | .cons t d rest => buildOne norm node t d ++ buildEntries norm node rest
end

/-! The two canonical order maps. -/

def chaveMapDebug : SchemaEntries :=
  .cons "InscricaoMunicipal" (.leaf "str")
  (.cons "SerieNFTS" (.leaf "serie")
  (.cons "NumeroDocumento" (.leaf "num_str") .nil))

def cpfcnpjPrestadorMap : SchemaEntries :=
  .cons "CNPJ" (.leaf "str") (.cons "CPF" (.leaf "str") .nil)

def enderecoMapDebug : SchemaEntries :=
  .cons "TipoLogradouro" (.leaf "str")
  (.cons "Logradouro" (.leaf "str")
  (.cons "NumeroEndereco" (.leaf "str")
  (.cons "ComplementoEndereco" (.leaf "str_opt")
  (.cons "Bairro" (.leaf "str")
  (.cons "Cidade" (.leaf "num_str")
  (.cons "UF" (.leaf "str")
  (.cons "CEP" (.leaf "str") .nil)))))))

def prestadorMapDebug : SchemaEntries :=
  .cons "CPFCNPJ" (.group cpfcnpjPrestadorMap)
  (.cons "InscricaoMunicipal" (.leaf "str")
  (.cons "RazaoSocialPrestador" (.leaf "str")
  (.cons "Endereco" (.group enderecoMapDebug)
  (.cons "Email" (.leaf "str_opt") .nil))))

def tomadorMap : SchemaEntries :=
  .cons "CPFCNPJ" (.group (.cons "CPF" (.leaf "str") (.cons "CNPJ" (.leaf "str") .nil)))
  (.cons "RazaoSocial" (.leaf "str") .nil)

/-- `canonical_order_map` of `sign_xml_soap_nfts_corrigido_com_debug.py`. -/
def canonical_order_map : SchemaEntries :=
  .cons "TipoDocumento" (.leaf "str")
  (.cons "ChaveDocumento" (.group chaveMapDebug)
  (.cons "DataPrestacao" (.leaf "str")
  (.cons "StatusNFTS" (.leaf "str")
  (.cons "TributacaoNFTS" (.leaf "str")
  (.cons "ValorServicos" (.leaf "float_currency")
  (.cons "ValorDeducoes" (.leaf "float_currency")
  (.cons "CodigoServico" (.leaf "num_str")
  (.cons "CodigoSubItem" (.leaf "num_str")
  (.cons "AliquotaServicos" (.leaf "float")
  (.cons "ISSRetidoTomador" (.leaf "bool")
  (.cons "ISSRetidoIntermediario" (.leaf "bool")
  (.cons "Prestador" (.group prestadorMapDebug)
  (.cons "RegimeTributacao" (.leaf "num_str")
  (.cons "DataPagamento" (.leaf "str_opt")
  (.cons "Discriminacao" (.leaf "str")
  (.cons "TipoNFTS" (.leaf "num_str")
  (.cons "Tomador" (.group tomadorMap) .nil)))))))))))))))))

def chaveMapNovos : SchemaEntries :=
  .cons "InscricaoMunicipal" (.leaf "str")
  (.cons "SerieNFTS" (.leaf "serie")
  (.cons "NumeroDocumento" (.leaf "str") .nil))

def enderecoMapNovos : SchemaEntries :=
  .cons "TipoLogradouro" (.leaf "str")
  (.cons "Logradouro" (.leaf "str")
  (.cons "NumeroEndereco" (.leaf "str")
  (.cons "ComplementoEndereco" (.leaf "str")
  (.cons "Bairro" (.leaf "str")
  (.cons "Cidade" (.leaf "num_str")
  (.cons "UF" (.leaf "str")
  (.cons "CEP" (.leaf "num_str") .nil)))))))

def prestadorMapNovos : SchemaEntries :=
  .cons "CPFCNPJ" (.group cpfcnpjPrestadorMap)
  (.cons "InscricaoMunicipal" (.leaf "str")
  (.cons "RazaoSocialPrestador" (.leaf "str")
  (.cons "Endereco" (.group enderecoMapNovos)
  (.cons "Email" (.leaf "str") .nil))))

/-- `canonical_order_map` of `sign_xml_soap_nfts_novos_campos.py`. -/
def canonical_order_map_novos : SchemaEntries :=
  .cons "TipoDocumento" (.leaf "str")
  (.cons "ChaveDocumento" (.group chaveMapNovos)
  (.cons "DataPrestacao" (.leaf "str")
  (.cons "StatusNFTS" (.leaf "str")
  (.cons "TributacaoNFTS" (.leaf "str")
  (.cons "ValorServicos" (.leaf "float_currency")
  (.cons "ValorDeducoes" (.leaf "float_currency")
  (.cons "CodigoServico" (.leaf "num_str")
  (.cons "CodigoSubItem" (.leaf "num_str")
  (.cons "AliquotaServicos" (.leaf "float")
  (.cons "ISSRetidoTomador" (.leaf "bool")
  (.cons "ISSRetidoIntermediario" (.leaf "bool")
  (.cons "Prestador" (.group prestadorMapNovos)
  (.cons "RegimeTributacao" (.leaf "num_str")
  (.cons "DataPagamento" (.leaf "str")
  (.cons "Discriminacao" (.leaf "str")
  (.cons "TipoNFTS" (.leaf "num_str")
  (.cons "Tomador" (.group tomadorMap) .nil)))))))))))))))))

/-! ## Serialization to canonical bytes -/

/-- Text escaping of the lxml serializer. -/
def escapeChar (c : Char) : Str :=
  if c = '&' then S "&amp;"
  else if c = '<' then S "&lt;"
  else if c = '>' then S "&gt;"
  else if c = '\r' then S "&#13;"
  else [c]

def escape (l : Str) : Str := (l.map escapeChar).flatten

mutual
/-- `etree.tostring` without declaration or pretty printing: a childless
element with no text collapses to a self-closing tag; otherwise open tag,
escaped text, serialized children, close tag. -/
def serializeX : XElem → Str
  | .node tag tx ch =>
    if tx.isNone && ch.isEmpty then '<' :: S tag ++ S "/>"
    else '<' :: S tag ++ '>' :: escape (tx.getD []) ++ serializeL ch ++
      S "</" ++ S tag ++ S ">"
def serializeL : List XElem → Str
  | [] => []
  | x :: xs => serializeX x ++ serializeL xs
end

/-- UTF-8 encoding of one character. -/
def utf8Bytes (c : Char) : List ℕ :=
  let n := c.toNat
  if n < 128 then [n]
  else if n < 2048 then [192 + n / 64, 128 + n % 64]
  else if n < 65536 then [224 + n / 4096, 128 + n / 64 % 64, 128 + n % 64]
  else [240 + n / 262144, 128 + n / 4096 % 64, 128 + n / 64 % 64, 128 + n % 64]

def bytesOf (s : Str) : List ℕ := (s.map utf8Bytes).flatten

/-- The canonical `tpNFTS` element built from a record unit: strip the
`Assinatura` child, run `build_fragment` against an order map, wrap in the
synthetic root tag. -/
def canonicalTpNFTS (norm : String → Str → Str) (es : SchemaEntries) (n : XElem) : XElem :=
  XElem.node "tpNFTS" none (buildEntries norm (stripAssin n) es)

def build_tpNFTS_string (norm : String → Str → Str) (es : SchemaEntries) (n : XElem) : Str :=
  serializeX (canonicalTpNFTS norm es n)

/-- `build_tpNFTS_bytes` of `sign_xml_soap_nfts_corrigido_com_debug.py`
(UTF-8, no declaration; the serializer emits no byte-order mark, so the
final BOM strip is the identity). -/
def build_tpNFTS_bytes (n : XElem) : List ℕ :=
  bytesOf (build_tpNFTS_string normKindDebug canonical_order_map n)

/-- `build_tpNFTS_bytes` of `sign_xml_soap_nfts_novos_campos.py`. -/
def build_tpNFTS_bytes_novos (n : XElem) : List ℕ :=
  bytesOf (build_tpNFTS_string normKindNovos canonical_order_map_novos n)

/-! ## Schema-reachable view of a record

`viewEntries` records exactly the data the canonical builder can reach:
for each schema name, whether a first matching child exists, its text for
leaf entries, and recursively its own view for group entries. -/

mutual
inductive FieldView where
  | leaf (t : Str)
  | group (sub : ViewList)
inductive ViewList where
  | nil
  | consAbsent (rest : ViewList)
  | consField (v : FieldView) (rest : ViewList)
end

mutual
def viewOf (c : XElem) : SchemaDef → FieldView
  | .leaf _ => .leaf (textD c)
  | .group sub => .group (viewEntries c sub)
def viewEntries (node : XElem) : SchemaEntries → ViewList
  | .nil => .nil
  | .cons t d rest =>
    match find_child node t with
    | none => .consAbsent (viewEntries node rest)
    | some c => .consField (viewOf c d) (viewEntries node rest)
end

/-! ## Pruning invariant -/

mutual
/-- A canonical node is fully pruned: childless nodes carry nonempty text,
groups are nonempty and recursively pruned. -/
def prunedOK : XElem → Bool
  | .node _ tx ch =>
    match ch with
    | [] => !(tx.getD []).isEmpty
    | c :: cs => prunedOKL (c :: cs)
def prunedOKL : List XElem → Bool
  | [] => true
  | c :: cs => prunedOK c && prunedOKL cs
end

/-- A schema entry whose empty-text rendering vanishes: leaves whose kind
normalizes `""` to `""`, and all groups (an empty child has no fields, so
its fragment is empty and the group is pruned). -/
def prunableEntry (norm : String → Str → Str) : SchemaDef → Bool
  | .leaf k => (norm k []).isEmpty
  | .group _ => true

/-- Every top-level entry named `tg` is prunable. -/
def prunableAt (norm : String → Str → Str) : SchemaEntries → String → Bool
  | .nil, _ => true
  | .cons t d rest, tg =>
    (if t = tg then prunableEntry norm d else true) && prunableAt norm rest tg

/-! ## Record reassembly after signing -/

/-- `NFTS_ELEMENT_ORDER` of `sign_xml_soap_nfts_novos_campos.py` (the
commented-out names are absent from the runtime list). -/
def NFTS_ELEMENT_ORDER : List String :=
  ["TipoDocumento", "ChaveDocumento", "DataPrestacao", "StatusNFTS", "TributacaoNFTS",
   "ValorServicos", "ValorDeducoes", "CodigoServico", "CodigoSubItem", "AliquotaServicos",
   "ISSRetidoTomador", "ISSRetidoIntermediario", "Prestador", "RegimeTributacao",
   "DataPagamento", "Discriminacao", "TipoNFTS", "Tomador",
   "Assinatura",
   "ExigibilidadeSuspensa",
   "PagamentoParceladoAntecipado"]

/-- One insertion into the Python dict `elements_dict` (later keys win). -/
def dictInsert (f : String → Option XElem) (el : XElem) : String → Option XElem :=
  fun t => if t = el.tag then some el else f t

/-- The dict comprehension over a child list. -/
def dictOfChildren (els : List XElem) : String → Option XElem :=
  els.foldl dictInsert (fun _ => none)

/-- The per-unit reassembly of `sign_file` in
`sign_xml_soap_nfts_novos_campos.py`: collect children into a dict keyed
by tag, add the `Assinatura` element, then re-append following
`NFTS_ELEMENT_ORDER`, skipping names without a dict entry. -/
def reassembleNovos (u : XElem) (sig : Str) : XElem :=
  let d1 := dictInsert (dictOfChildren u.children)
    (XElem.node "Assinatura" (some sig) [])
  XElem.node u.tag u.text (NFTS_ELEMENT_ORDER.filterMap d1)

/-- Replace the text of the first child with the given tag. -/
def setFirstTagText (t : String) (txt : Str) : List XElem → List XElem
  | [] => []
  | c :: rest =>
    if c.tag = t then XElem.node c.tag (some txt) c.children :: rest
    else c :: setFirstTagText t txt rest

/-- The per-unit signature insertion of `sign_file` in
`sign_xml_soap_nfts_corrigido_com_debug.py`: set the text of the existing
`Assinatura` child, or append a fresh one; all other children untouched. -/
def reassembleDebug (u : XElem) (sig : Str) : XElem :=
  match find_child u "Assinatura" with
  | some _ => XElem.node u.tag u.text (setFirstTagText "Assinatura" sig u.children)
  | none => XElem.node u.tag u.text (u.children ++ [XElem.node "Assinatura" (some sig) []])

/-! ## Signature plumbing: base64, whitespace stripping, RSA model -/

/-- Python `"".join(text.split())`: remove every whitespace character. -/
def pyJoinSplit (l : Str) : Str := l.filter (fun c => !isPySpace c)

def b64Alphabet : Str :=
  S "ABCDEFGHIJKLMNOPQRSTUVWXYZabcdefghijklmnopqrstuvwxyz0123456789+/"

def b64Char (i : ℕ) : Char := b64Alphabet.getD i 'A'

def b64ValAux : Str → ℕ → Char → Option ℕ
  | [], _, _ => none
  | a :: rest, i, c => if a = c then some i else b64ValAux rest (i + 1) c

def b64CharVal (c : Char) : Option ℕ := b64ValAux b64Alphabet 0 c

/-- `base64.b64encode` over byte values. -/
def b64encode : List ℕ → Str
  | [] => []
  | [b1] => [b64Char (b1 / 4), b64Char (b1 % 4 * 16), '=', '=']
  | [b1, b2] =>
    [b64Char (b1 / 4), b64Char (b1 % 4 * 16 + b2 / 16), b64Char (b2 % 16 * 4), '=']
  | b1 :: b2 :: b3 :: rest =>
    b64Char (b1 / 4) :: b64Char (b1 % 4 * 16 + b2 / 16) ::
      b64Char (b2 % 16 * 4 + b3 / 64) :: b64Char (b3 % 64) :: b64encode rest

/-- `base64.b64decode(validate=True)`, quantum by quantum: non-alphabet
characters outside the padding positions fail, a final `=`/`==` padded
quantum yields the short byte group. -/
def b64decode : Str → Option (List ℕ)
  | [] => some []
  | a :: b :: c :: d :: rest =>
    (b64CharVal a).bind fun va => (b64CharVal b).bind fun vb =>
      if c = '=' then
        if d = '=' ∧ rest = [] then some [va * 4 + vb / 16] else none
      else
        (b64CharVal c).bind fun vc =>
          if d = '=' then
            if rest = [] then some [va * 4 + vb / 16, vb % 16 * 16 + vc / 4]
            else none
          else
            (b64CharVal d).bind fun vd =>
              (b64decode rest).map fun tail =>
                (va * 4 + vb / 16) :: (vb % 16 * 16 + vc / 4) ::
                  (vc % 4 * 64 + vd) :: tail
  | _ => none

/-- Big-endian octet string of fixed length `k`. -/
def i2osp : ℕ → ℕ → List ℕ
  | 0, _ => []
  | k + 1, x => i2osp k (x / 256) ++ [x % 256]

def os2ip (l : List ℕ) : ℕ := l.foldl (fun a b => 256 * a + b) 0

/-- Modelled from the spec: the external cryptography library's RSA key
pair as used by `private_key.sign` / `pubkey.verify` (the repository only
calls the library).  `k` is the modulus octet length and `inverts` is the
RSA private/public round-trip property of a compatible key pair. -/
structure RSAKeyPair where
  n : ℕ
  e : ℕ
  d : ℕ
  k : ℕ
  n_pos : 0 < n
  n_le : n ≤ 256 ^ k
  inverts : ∀ m, m < n → (m ^ d) ^ e % n = m

/-- Modelled from the spec: `sign_bytes_sha1_pkcs1` — the fixed
hash-and-pad scheme (SHA-1 digest inside an EMSA-PKCS1-v1.5 block) is
abstracted as a deterministic encoder `pe` whose output the caller keeps
below the modulus; the library then applies the RSA private exponent. -/
def sign_bytes_sha1_pkcs1 (kp : RSAKeyPair) (pe : List ℕ → ℕ) (data : List ℕ) : List ℕ :=
  i2osp kp.k (pe data ^ kp.d % kp.n)

/-- The signing loop body of `sign_file`
(`sign_xml_soap_nfts_corrigido_com_debug.py`): canonicalize, sign,
base64-encode, strip whitespace, insert as the `Assinatura` text. -/
def sign_unit (kp : RSAKeyPair) (pe : List ℕ → ℕ) (u : XElem) : XElem :=
  let sig := sign_bytes_sha1_pkcs1 kp pe (build_tpNFTS_bytes u)
  reassembleDebug u (pyJoinSplit (b64encode sig))

/-- The verification loop body of `verify_signed_nfts`: locate the
`Assinatura` child (`none` when absent), strip whitespace from its text,
base64-decode with validation (`none` on failure), rebuild the canonical
bytes and check the signature under the public exponent.  `some true` is
the VERIFICAÇÃO OK outcome. -/
def verify_signed_nfts (kp : RSAKeyPair) (pe : List ℕ → ℕ) (u : XElem) : Option Bool :=
  match find_child u "Assinatura" with
  | none => none
  | some a =>
    match a.text with
    | none => none
    | some t =>
      match b64decode (pyJoinSplit t) with
      | none => none
      | some sigBytes =>
        some (decide (os2ip sigBytes ^ kp.e % kp.n = pe (build_tpNFTS_bytes u)))

/-! ## Auxiliary definitions for the statements -/

mutual
/-- Schema well-formedness: names are unique at every level (true of both
canonical order maps). -/
def wfDef : SchemaDef → Bool
  | .leaf _ => true
  | .group es => wfEntries es
def wfEntries : SchemaEntries → Bool
  | .nil => true
  | .cons t d rest =>
    !(namesOf rest).contains t && wfDef d && wfEntries rest
end

/-- A childless element carrying text, for sample records. -/
def leafEl (t v : String) : XElem := XElem.node t (some (S v)) []

/-- Sample record unit: schema fields plus an unknown extra field. -/
def sampleUnitA : XElem :=
  XElem.node "NFTS" none
    [leafEl "TipoDocumento" "02", leafEl "ValorServicos" "1234,5",
     leafEl "ExtraField" "zz"]

/-- The same schema-reachable content as `sampleUnitA`, with different
field order, a different unknown field and a stale signature. -/
def sampleUnitB : XElem :=
  XElem.node "NFTS" none
    [leafEl "OtherExtra" "ww", leafEl "ValorServicos" "1234,5",
     leafEl "TipoDocumento" "02", leafEl "Assinatura" "stale"]

/-- Sample unit with nested groups for the pruning and reassembly claims. -/
def sampleUnitC : XElem :=
  XElem.node "NFTS" none
    [leafEl "TipoDocumento" "02",
     XElem.node "Prestador" none
       [XElem.node "CPFCNPJ" none [leafEl "CNPJ" "123"],
        XElem.node "Endereco" none [leafEl "ComplementoEndereco" "  "]],
     leafEl "DataPagamento" "",
     leafEl "ISSRetidoTomador" "",
     leafEl "Tomador" "x"]

/-- A unit containing a field outside `NFTS_ELEMENT_ORDER`. -/
def sampleUnitD : XElem :=
  XElem.node "NFTS" none
    [leafEl "TipoDocumento" "1", leafEl "CustomField" "x"]

/-- A well-behaved unit (unique known tags) in scrambled order. -/
def sampleUnitE : XElem :=
  XElem.node "NFTS" none
    [leafEl "Tomador" "t", leafEl "TipoDocumento" "1",
     leafEl "DataPrestacao" "2024-01-01"]

/-- A toy compatible RSA key pair (n = 33, e = 3, d = 7; exponent 21 is
1 modulo lcm(2, 10)), small enough that its round-trip property is checked
by enumeration. -/
def toyKeyPair : RSAKeyPair where
  n := 33
  e := 3
  d := 7
  k := 1
  n_pos := by norm_num
  n_le := by norm_num
  inverts := by decide

/-- A toy deterministic digest-and-pad encoder bounded by the toy modulus. -/
def toyEncode (bs : List ℕ) : ℕ := bs.foldl (fun a b => a + b) 0 % 33

/-- Accumulator-style decimal value of a digit run, the value `takeDigs`
and `pyIntParse` compute. -/
def valOfD (l : Str) (acc : ℕ) : ℕ :=
  l.foldl (fun v c => 10 * v + (pyIntDigitVal c).getD 0) acc

/-- A record unit whose serie value carries a tab inside the five-column
window, exhibiting non-idempotence of the padded serie normalizer. -/
def serieTabUnit : XElem :=
  XElem.node "NFTS" none
    [XElem.node "ChaveDocumento" none [leafEl "SerieNFTS" "ABCD\tE"]]

/-! ## Lemmas: canonical bytes are a function of the schema-reachable view -/

theorem findChildL_removeFirst (rt t : String) (h : t ≠ rt) :
    ∀ ch : List XElem, findChildL t (removeFirst rt ch) = findChildL t ch := by
  intro ch
  induction ch with
  | nil => rfl
  | cons c rest ih =>
    by_cases hc : c.tag = rt
    · have hct : ¬ c.tag = t := fun he => h (he ▸ hc)
      have hrt : ¬ rt = t := fun he => h he.symm
      simp [removeFirst, hc, findChildL, hct, hrt]
    · by_cases hct : c.tag = t
      · simp [removeFirst, hc, findChildL, hct, h]
      · simp [removeFirst, hc, findChildL, hct, ih]

theorem find_child_strip (n : XElem) (t : String) (h : t ≠ "Assinatura") :
    find_child (stripAssin n) t = find_child n t := by
  simp [find_child, stripAssin, XElem.children,
    findChildL_removeFirst "Assinatura" t h]

theorem viewEntries_strip (n : XElem) :
    ∀ es : SchemaEntries, ¬ "Assinatura" ∈ namesOf es →
      viewEntries (stripAssin n) es = viewEntries n es
  | .nil, _ => rfl
  | .cons t d rest, hmem => by
    have ht : t ≠ "Assinatura" := fun he => hmem (by simp [namesOf, he])
    have hrest : ¬ "Assinatura" ∈ namesOf rest :=
      fun hr => hmem (by simp [namesOf, hr])
    simp only [viewEntries, find_child_strip n t ht,
      viewEntries_strip n rest hrest]

theorem buildOne_absent (norm : String → Str → Str) (n : XElem) (t : String)
    (d : SchemaDef) (h : find_child n t = none) : buildOne norm n t d = [] := by
  match d with
  | .leaf k => simp [buildOne, h]
  | .group sub => simp [buildOne, h]

mutual
theorem buildOne_congr (norm : String → Str → Str) (t : String) (n1 n2 c1 c2 : XElem)
    (d : SchemaDef)
    (h1 : find_child n1 t = some c1) (h2 : find_child n2 t = some c2)
    (hv : viewOf c1 d = viewOf c2 d) :
    buildOne norm n1 t d = buildOne norm n2 t d := by
  match d with
  | .leaf k =>
    simp only [viewOf, FieldView.leaf.injEq] at hv
    simp only [buildOne, h1, h2, hv]
  | .group sub =>
    simp only [viewOf, FieldView.group.injEq] at hv
    have hsub := buildEntries_congr norm c1 c2 sub hv
    simp only [buildOne, h1, h2, hsub]
theorem buildEntries_congr (norm : String → Str → Str) (n1 n2 : XElem) :
    ∀ es : SchemaEntries, viewEntries n1 es = viewEntries n2 es →
      buildEntries norm n1 es = buildEntries norm n2 es
  | .nil, _ => rfl
  | .cons t d rest, h => by
    cases hf1 : find_child n1 t with
    | none =>
      cases hf2 : find_child n2 t with
      | none =>
        simp only [viewEntries, hf1, hf2, ViewList.consAbsent.injEq] at h
        simp only [buildEntries, buildOne_absent norm n1 t d hf1,
          buildOne_absent norm n2 t d hf2,
          buildEntries_congr norm n1 n2 rest h]
      | some c2 =>
        simp only [viewEntries, hf1, hf2] at h
        exact absurd h (by simp)
    | some c1 =>
      cases hf2 : find_child n2 t with
      | none =>
        simp only [viewEntries, hf1, hf2] at h
        exact absurd h (by simp)
      | some c2 =>
        simp only [viewEntries, hf1, hf2, ViewList.consField.injEq] at h
        simp only [buildEntries,
          buildOne_congr norm t n1 n2 c1 c2 d hf1 hf2 h.1,
          buildEntries_congr norm n1 n2 rest h.2]
end

/-- C1: canonical-form output is a pure function of the schema-reachable
record content — record units that agree, field by schema field (matched
by local name, first match), on the reachable text produce byte-identical
`build_tpNFTS_bytes` output, in either schema variant, regardless of other
fields, of source field order, or of repeated invocation. -/
theorem claim1_canonical_function_of_view :
    (∀ n1 n2 : XElem,
      viewEntries n1 canonical_order_map = viewEntries n2 canonical_order_map →
      build_tpNFTS_bytes n1 = build_tpNFTS_bytes n2) ∧
    (∀ n1 n2 : XElem,
      viewEntries n1 canonical_order_map_novos = viewEntries n2 canonical_order_map_novos →
      build_tpNFTS_bytes_novos n1 = build_tpNFTS_bytes_novos n2) := by
  have hA : ¬ "Assinatura" ∈ namesOf canonical_order_map := by decide
  have hB : ¬ "Assinatura" ∈ namesOf canonical_order_map_novos := by decide
  constructor
  · intro n1 n2 h
    have hv : viewEntries (stripAssin n1) canonical_order_map =
        viewEntries (stripAssin n2) canonical_order_map := by
      rw [viewEntries_strip n1 canonical_order_map hA,
        viewEntries_strip n2 canonical_order_map hA, h]
    unfold build_tpNFTS_bytes build_tpNFTS_string canonicalTpNFTS
    rw [buildEntries_congr normKindDebug (stripAssin n1) (stripAssin n2)
      canonical_order_map hv]
  · intro n1 n2 h
    have hv : viewEntries (stripAssin n1) canonical_order_map_novos =
        viewEntries (stripAssin n2) canonical_order_map_novos := by
      rw [viewEntries_strip n1 canonical_order_map_novos hB,
        viewEntries_strip n2 canonical_order_map_novos hB, h]
    unfold build_tpNFTS_bytes_novos build_tpNFTS_string canonicalTpNFTS
    rw [buildEntries_congr normKindNovos (stripAssin n1) (stripAssin n2)
      canonical_order_map_novos hv]

/-- C1 witness: two concrete record units differing in field order, extra
fields and a stale signature, whose schema-reachable views agree and whose
canonical bytes therefore coincide. -/
theorem claim1_witness :
    viewEntries sampleUnitA canonical_order_map =
      viewEntries sampleUnitB canonical_order_map ∧
    build_tpNFTS_bytes sampleUnitA = build_tpNFTS_bytes sampleUnitB := by
  refine ⟨rfl, ?_⟩
  exact claim1_canonical_function_of_view.1 sampleUnitA sampleUnitB rfl

/-! ## Lemmas: pruning -/

theorem prunedOKL_eq (l : List XElem) : prunedOKL l = l.all prunedOK := by
  induction l with
  | nil => rfl
  | cons c cs ih => simp [prunedOKL, List.all, ih]

mutual
theorem buildOne_prunedOK (norm : String → Str → Str) (n : XElem) (t : String) :
    ∀ d : SchemaDef, (buildOne norm n t d).all prunedOK = true
  | .leaf k => by
    cases hf : find_child n t with
    | none => simp [buildOne, hf]
    | some c =>
      by_cases hfin : norm k (textD c) = []
      · simp [buildOne, hf, hfin]
      · simp only [buildOne, hf, if_neg hfin, List.all_cons, List.all_nil,
          Bool.and_true]
        simp [prunedOK, List.isEmpty_eq_true, hfin]
  | .group sub => by
    cases hf : find_child n t with
    | none => simp [buildOne, hf]
    | some c =>
      cases hn : buildEntries norm c sub with
      | nil => simp [buildOne, hf, hn]
      | cons x xs =>
        have hall := buildEntries_prunedOK norm c sub
        rw [hn] at hall
        simp only [buildOne, hf, hn, List.isEmpty_cons, Bool.false_eq_true,
          if_false, List.all_cons, List.all_nil, Bool.and_true]
        simp only [prunedOK, prunedOKL_eq, hall]
theorem buildEntries_prunedOK (norm : String → Str → Str) (n : XElem) :
    ∀ es : SchemaEntries, (buildEntries norm n es).all prunedOK = true
  | .nil => rfl
  | .cons t d rest => by
    simp [buildEntries, List.all_append, buildOne_prunedOK norm n t d,
      buildEntries_prunedOK norm n rest]
end

theorem buildOne_leaf_empty (norm : String → Str → Str) (n : XElem) (t k : String)
    (c : XElem) (hf : find_child n t = some c) (he : norm k (textD c) = []) :
    buildOne norm n t (.leaf k) = [] := by
  simp [buildOne, hf, he]

theorem buildOne_group_empty (norm : String → Str → Str) (n : XElem) (t : String)
    (sub : SchemaEntries) (c : XElem) (hf : find_child n t = some c)
    (he : buildEntries norm c sub = []) :
    buildOne norm n t (.group sub) = [] := by
  simp [buildOne, hf, he]

/-- C4: pruning — a schema field whose value normalizes to the empty
string contributes nothing to the canonical fragment, a group whose child
fragment is empty is itself absent, and consequently every node of every
built fragment is recursively non-empty (childless nodes carry nonempty
text, groups are nonempty), so no empty element ever reaches the canonical
bytes; the omission propagates upward because an omitted group yields the
empty fragment its parent tests. -/
theorem claim4_pruning :
    (∀ (norm : String → Str → Str) (n : XElem) (t k : String) (c : XElem),
      find_child n t = some c → norm k (textD c) = [] →
      buildOne norm n t (.leaf k) = []) ∧
    (∀ (norm : String → Str → Str) (n : XElem) (t : String)
      (sub : SchemaEntries) (c : XElem),
      find_child n t = some c → buildEntries norm c sub = [] →
      buildOne norm n t (.group sub) = []) ∧
    (∀ (norm : String → Str → Str) (n : XElem) (es : SchemaEntries),
      (buildEntries norm n es).all prunedOK = true) := by
  exact ⟨buildOne_leaf_empty, buildOne_group_empty, buildEntries_prunedOK⟩

/-- C4 witness: on a concrete record, the empty-after-cleaning optional
field vanishes, the `Endereco` group all of whose children prune vanishes,
and the whole built fragment satisfies the non-emptiness invariant. -/
theorem claim4_witness :
    buildOne normKindDebug sampleUnitC "DataPagamento" (.leaf "str_opt") = [] ∧
    buildOne normKindDebug
      (XElem.node "Prestador" none
        [XElem.node "Endereco" none [leafEl "ComplementoEndereco" "  "]])
      "Endereco" (.group enderecoMapDebug) = [] ∧
    (buildEntries normKindDebug sampleUnitC canonical_order_map).all prunedOK = true := by
  refine ⟨?_, ?_, claim4_pruning.2.2 normKindDebug sampleUnitC canonical_order_map⟩
  · exact claim4_pruning.1 normKindDebug sampleUnitC "DataPagamento" "str_opt"
      (leafEl "DataPagamento" "") rfl rfl
  · exact claim4_pruning.2.1 normKindDebug
      (XElem.node "Prestador" none
        [XElem.node "Endereco" none [leafEl "ComplementoEndereco" "  "]])
      "Endereco" enderecoMapDebug
      (XElem.node "Endereco" none [leafEl "ComplementoEndereco" "  "]) rfl rfl

/-! ## Lemmas: absent fields versus empty fields -/

theorem buildOne_ext (norm : String → Str → Str) (t : String) (n1 n2 : XElem)
    (d : SchemaDef) (h : find_child n1 t = find_child n2 t) :
    buildOne norm n1 t d = buildOne norm n2 t d := by
  match d with
  | .leaf k => simp only [buildOne, h]
  | .group sub => simp only [buildOne, h]

theorem findChildL_append (t : String) :
    ∀ l1 l2 : List XElem, findChildL t (l1 ++ l2) =
      match findChildL t l1 with
      | some c => some c
      | none => findChildL t l2 := by
  intro l1 l2
  induction l1 with
  | nil => simp [findChildL]
  | cons c rest ih =>
    by_cases hc : c.tag = t
    · simp [findChildL, hc]
    · simp [findChildL, hc, ih]

theorem find_child_appendChild (n e : XElem) (t : String) :
    find_child (appendChild n e) t =
      match find_child n t with
      | some c => some c
      | none => findChildL t [e] := by
  obtain ⟨tg0, tx0, ch0⟩ := n
  simp only [find_child, appendChild, XElem.children]
  exact findChildL_append t ch0 [e]

theorem find_child_childless (tg : String) (tx : Option Str) (t : String) :
    find_child (XElem.node tg tx []) t = none := rfl

theorem buildEntries_childless (norm : String → Str → Str) (tg : String)
    (tx : Option Str) :
    ∀ es : SchemaEntries, buildEntries norm (XElem.node tg tx []) es = []
  | .nil => rfl
  | .cons t d rest => by
    simp [buildEntries, buildOne_absent norm _ t d (find_child_childless tg tx t),
      buildEntries_childless norm tg tx rest]

theorem buildEntries_append_prunable (norm : String → Str → Str) (tg : String)
    (n : XElem) :
    ∀ es : SchemaEntries, prunableAt norm es tg = true →
      buildEntries norm (appendChild n (XElem.node tg (some []) [])) es =
        buildEntries norm n es
  | .nil, _ => rfl
  | .cons t d rest, h => by
    simp only [prunableAt, Bool.and_eq_true] at h
    obtain ⟨h1, h2⟩ := h
    have hrest := buildEntries_append_prunable norm tg n rest h2
    by_cases htg : t = tg
    · have hpr : prunableEntry norm d = true := by rw [if_pos htg] at h1; exact h1
      cases hf : find_child n t with
      | some c =>
        have hfa : find_child (appendChild n (XElem.node tg (some []) [])) t =
            some c := by rw [find_child_appendChild, hf]
        simp only [buildEntries, hrest,
          buildOne_ext norm t _ n d (hfa.trans hf.symm)]
      | none =>
        have hfa : find_child (appendChild n (XElem.node tg (some []) [])) t =
            some (XElem.node tg (some []) []) := by
          rw [find_child_appendChild, hf]
          simp [findChildL, XElem.tag, htg.symm]
        have hone : buildOne norm (appendChild n (XElem.node tg (some []) []))
            t d = [] := by
          match d with
          | .leaf k =>
            have hk : norm k [] = [] := by
              simpa [prunableEntry, List.isEmpty_iff] using hpr
            simp [buildOne, hfa, textD, XElem.text, hk]
          | .group sub =>
            simp [buildOne, hfa, buildEntries_childless norm tg (some []) sub]
        simp only [buildEntries, hrest, hone, buildOne_absent norm n t d hf]
    · have hfa : find_child (appendChild n (XElem.node tg (some []) [])) t =
          find_child n t := by
        rw [find_child_appendChild]
        cases hf : find_child n t with
        | some c => rfl
        | none =>
          have hne : ¬ tg = t := fun he => htg he.symm
          simp [findChildL, XElem.tag, hne]
      simp only [buildEntries, hrest, buildOne_ext norm t _ n d hfa]

theorem removeFirst_append_ne (rt : String) (e : XElem) (h : e.tag ≠ rt) :
    ∀ ch : List XElem, removeFirst rt (ch ++ [e]) = removeFirst rt ch ++ [e] := by
  intro ch
  induction ch with
  | nil => simp [removeFirst, h]
  | cons c rest ih =>
    by_cases hc : c.tag = rt
    · simp [removeFirst, hc]
    · simp [removeFirst, hc, ih]

theorem stripAssin_appendChild (n e : XElem) (h : e.tag ≠ "Assinatura") :
    stripAssin (appendChild n e) = appendChild (stripAssin n) e := by
  simp [stripAssin, appendChild, XElem.children, XElem.tag, XElem.text,
    removeFirst_append_ne "Assinatura" e h]

/-- C7: a record unit from which an optional schema field is entirely
absent produces exactly the canonical output of the unit carrying the
field with empty text.  Stated generically: appending an empty-text child
for any name all of whose entries at that schema level prune on empty
(every `str`/`str_opt`/numeric/decimal leaf and every group) leaves the
built fragment unchanged, and for the two shipped schema maps the full
canonical bytes are unchanged. -/
theorem claim7_absent_equals_empty :
    (∀ (norm : String → Str → Str) (es : SchemaEntries) (n : XElem) (tg : String),
      prunableAt norm es tg = true →
      buildEntries norm (appendChild n (XElem.node tg (some []) [])) es =
        buildEntries norm n es) ∧
    (∀ (n : XElem) (tg : String),
      prunableAt normKindDebug canonical_order_map tg = true →
      tg ≠ "Assinatura" →
      build_tpNFTS_bytes (appendChild n (XElem.node tg (some []) [])) =
        build_tpNFTS_bytes n) ∧
    (∀ (n : XElem) (tg : String),
      prunableAt normKindNovos canonical_order_map_novos tg = true →
      tg ≠ "Assinatura" →
      build_tpNFTS_bytes_novos (appendChild n (XElem.node tg (some []) [])) =
        build_tpNFTS_bytes_novos n) := by
  refine ⟨fun norm es n tg h => buildEntries_append_prunable norm tg n es h,
    ?_, ?_⟩
  · intro n tg h hA
    have htag : (XElem.node tg (some ([] : Str)) []).tag ≠ "Assinatura" := by
      simpa [XElem.tag] using hA
    unfold build_tpNFTS_bytes build_tpNFTS_string canonicalTpNFTS
    rw [stripAssin_appendChild n _ htag,
      buildEntries_append_prunable normKindDebug tg (stripAssin n)
        canonical_order_map h]
  · intro n tg h hA
    have htag : (XElem.node tg (some ([] : Str)) []).tag ≠ "Assinatura" := by
      simpa [XElem.tag] using hA
    unfold build_tpNFTS_bytes_novos build_tpNFTS_string canonicalTpNFTS
    rw [stripAssin_appendChild n _ htag,
      buildEntries_append_prunable normKindNovos tg (stripAssin n)
        canonical_order_map_novos h]

/-- C7 witness: the optional `DataPagamento` field of the debug schema —
adding it with empty text to a concrete unit that lacks it leaves the
canonical bytes identical. -/
theorem claim7_witness :
    prunableAt normKindDebug canonical_order_map "DataPagamento" = true ∧
    build_tpNFTS_bytes
        (appendChild sampleUnitE (XElem.node "DataPagamento" (some []) [])) =
      build_tpNFTS_bytes sampleUnitE :=
  ⟨by decide,
   claim7_absent_equals_empty.2.1 sampleUnitE "DataPagamento" (by decide)
     (by decide)⟩

/-! ## Lemmas: base64, octet strings, signature plumbing -/

theorem b64CharVal_b64Char : ∀ i < 64, b64CharVal (b64Char i) = some i := by
  decide

theorem b64Char_ne_pad : ∀ i < 64, b64Char i ≠ '=' := by decide

theorem b64Char_not_space : ∀ i : ℕ, isPySpace (b64Char i) = false := by
  intro i
  by_cases h : i < 64
  · exact (by decide : ∀ j < 64, isPySpace (b64Char j) = false) i h
  · have hlen : b64Alphabet.length ≤ i := by
      have h64 : b64Alphabet.length = 64 := by decide
      omega
    have hnone : b64Alphabet[i]? = none := by
      exact List.getElem?_eq_none hlen
    have hd : b64Char i = 'A' := by simp [b64Char, List.getD, hnone]
    rw [hd]; decide

theorem mem_b64encode_shape :
    ∀ (l : List ℕ) (c : Char), c ∈ b64encode l → (∃ i, c = b64Char i) ∨ c = '='
  | [], c, h => by simp [b64encode] at h
  | [b1], c, h => by
    simp only [b64encode, List.mem_cons, List.not_mem_nil, or_false] at h
    rcases h with h | h | h | h
    · exact Or.inl ⟨_, h⟩
    · exact Or.inl ⟨_, h⟩
    · exact Or.inr h
    · exact Or.inr h
  | [b1, b2], c, h => by
    simp only [b64encode, List.mem_cons, List.not_mem_nil, or_false] at h
    rcases h with h | h | h | h
    · exact Or.inl ⟨_, h⟩
    · exact Or.inl ⟨_, h⟩
    · exact Or.inl ⟨_, h⟩
    · exact Or.inr h
  | b1 :: b2 :: b3 :: rest, c, h => by
    simp only [b64encode, List.mem_cons] at h
    rcases h with h | h | h | h | h
    · exact Or.inl ⟨_, h⟩
    · exact Or.inl ⟨_, h⟩
    · exact Or.inl ⟨_, h⟩
    · exact Or.inl ⟨_, h⟩
    · exact mem_b64encode_shape rest c h

theorem b64encode_no_space (l : List ℕ) :
    pyJoinSplit (b64encode l) = b64encode l := by
  rw [pyJoinSplit, List.filter_eq_self]
  intro c hc
  rcases mem_b64encode_shape l c hc with ⟨i, hi⟩ | hpad
  · simp [hi, b64Char_not_space]
  · simp [hpad]; decide

theorem b64decode_encode :
    ∀ l : List ℕ, (∀ b ∈ l, b < 256) → b64decode (b64encode l) = some l
  | [], _ => rfl
  | [b1], h => by
    have hb1 : b1 < 256 := h b1 (by simp)
    have h1 : b1 / 4 < 64 := by omega
    have h2 : b1 % 4 * 16 < 64 := by omega
    have e1 : b1 / 4 * 4 + b1 % 4 * 16 / 16 = b1 := by omega
    have e2 : b1 / 4 * 4 + b1 % 4 = b1 := by omega
    simp [b64encode, b64decode, b64CharVal_b64Char _ h1,
      b64CharVal_b64Char _ h2, e1, e2]
  | [b1, b2], h => by
    have hb1 : b1 < 256 := h b1 (by simp)
    have hb2 : b2 < 256 := h b2 (by simp)
    have h1 : b1 / 4 < 64 := by omega
    have h2 : b1 % 4 * 16 + b2 / 16 < 64 := by omega
    have h3 : b2 % 16 * 4 < 64 := by omega
    have hne : b64Char (b2 % 16 * 4) ≠ '=' := b64Char_ne_pad _ h3
    have e1 : b1 / 4 * 4 + (b1 % 4 * 16 + b2 / 16) / 16 = b1 := by omega
    have e2 : (b1 % 4 * 16 + b2 / 16) % 16 * 16 + b2 % 16 * 4 / 4 = b2 := by
      omega
    have e3 : (b1 % 4 * 16 + b2 / 16) % 16 * 16 + b2 % 16 = b2 := by omega
    simp [b64encode, b64decode, b64CharVal_b64Char _ h1,
      b64CharVal_b64Char _ h2, b64CharVal_b64Char _ h3, hne, e1, e2, e3]
  | b1 :: b2 :: b3 :: rest, h => by
    have hb1 : b1 < 256 := h b1 (by simp)
    have hb2 : b2 < 256 := h b2 (by simp)
    have hb3 : b3 < 256 := h b3 (by simp)
    have h1 : b1 / 4 < 64 := by omega
    have h2 : b1 % 4 * 16 + b2 / 16 < 64 := by omega
    have h3 : b2 % 16 * 4 + b3 / 64 < 64 := by omega
    have h4 : b3 % 64 < 64 := by omega
    have hne3 : b64Char (b2 % 16 * 4 + b3 / 64) ≠ '=' := b64Char_ne_pad _ h3
    have hne4 : b64Char (b3 % 64) ≠ '=' := b64Char_ne_pad _ h4
    have ih := b64decode_encode rest (fun b hb => h b (by simp [hb]))
    have e1 : b1 / 4 * 4 + (b1 % 4 * 16 + b2 / 16) / 16 = b1 := by omega
    have e2 : (b1 % 4 * 16 + b2 / 16) % 16 * 16 + (b2 % 16 * 4 + b3 / 64) / 4 = b2 := by
      omega
    have e3 : (b2 % 16 * 4 + b3 / 64) % 4 * 64 + b3 % 64 = b3 := by omega
    simp [b64encode, b64decode, b64CharVal_b64Char _ h1,
      b64CharVal_b64Char _ h2, b64CharVal_b64Char _ h3,
      b64CharVal_b64Char _ h4, hne3, hne4, ih, e1, e2, e3]

theorem os2ip_i2osp : ∀ (k x : ℕ), x < 256 ^ k → os2ip (i2osp k x) = x := by
  intro k
  induction k with
  | zero => intro x hx; interval_cases x; rfl
  | succ k ih =>
    intro x hx
    have hdiv : x / 256 < 256 ^ k := by
      have h1 : x < 256 * 256 ^ k := by
        calc x < 256 ^ (k + 1) := hx
        _ = 256 * 256 ^ k := by ring
      exact Nat.div_lt_of_lt_mul h1
    simp only [i2osp, os2ip, List.foldl_append]
    have hrec := ih (x / 256) hdiv
    simp only [os2ip] at hrec
    simp only [hrec, List.foldl_cons, List.foldl_nil]
    omega

theorem i2osp_lt : ∀ (k x : ℕ), ∀ b ∈ i2osp k x, b < 256 := by
  intro k
  induction k with
  | zero => intro x b hb; simp [i2osp] at hb
  | succ k ih =>
    intro x b hb
    simp only [i2osp, List.mem_append, List.mem_singleton] at hb
    rcases hb with hb | hb
    · exact ih (x / 256) b hb
    · omega

theorem removeFirst_of_none (t : String) :
    ∀ ch : List XElem, findChildL t ch = none → removeFirst t ch = ch := by
  intro ch
  induction ch with
  | nil => intro; rfl
  | cons c rest ih =>
    intro h
    by_cases hc : c.tag = t
    · simp [findChildL, hc] at h
    · simp only [findChildL, if_neg hc] at h
      simp [removeFirst, hc, ih h]

theorem removeFirst_append_absent (t : String) (e : XElem) :
    ∀ ch : List XElem, findChildL t ch = none → e.tag = t →
      removeFirst t (ch ++ [e]) = ch := by
  intro ch
  induction ch with
  | nil =>
    intro _ he
    simp [removeFirst, he]
  | cons c rest ih =>
    intro h he
    by_cases hc : c.tag = t
    · simp [findChildL, hc] at h
    · simp only [findChildL, if_neg hc] at h
      simp [removeFirst, hc, ih h he]

theorem removeFirst_setFirst (t : String) (txt : Str) :
    ∀ ch : List XElem,
      removeFirst t (setFirstTagText t txt ch) = removeFirst t ch := by
  intro ch
  induction ch with
  | nil => rfl
  | cons c rest ih =>
    obtain ⟨ct, cx, cc⟩ := c
    by_cases hc : ct = t
    · simp [setFirstTagText, removeFirst, XElem.tag, XElem.children, hc]
    · simp [setFirstTagText, removeFirst, XElem.tag, hc, ih]

theorem findChildL_setFirst (t : String) (txt : Str) :
    ∀ (ch : List XElem) (a : XElem), findChildL t ch = some a →
      findChildL t (setFirstTagText t txt ch) =
        some (XElem.node a.tag (some txt) a.children) := by
  intro ch
  induction ch with
  | nil => intro a h; simp [findChildL] at h
  | cons c rest ih =>
    intro a h
    obtain ⟨ct, cx, cc⟩ := c
    by_cases hc : ct = t
    · simp only [findChildL, XElem.tag, if_pos hc, Option.some.injEq] at h
      subst h
      simp [setFirstTagText, findChildL, XElem.tag, XElem.children, hc]
    · simp only [findChildL, XElem.tag, if_neg hc] at h
      simp [setFirstTagText, findChildL, XElem.tag, hc, ih a h]

theorem stripAssin_reassembleDebug (u : XElem) (sig : Str) :
    stripAssin (reassembleDebug u sig) = stripAssin u := by
  obtain ⟨ut, ux, uch⟩ := u
  cases hf : findChildL "Assinatura" uch with
  | some a =>
    simp [reassembleDebug, find_child, XElem.children, hf, stripAssin,
      XElem.tag, XElem.text, removeFirst_setFirst]
  | none =>
    simp [reassembleDebug, find_child, XElem.children, hf, stripAssin,
      XElem.tag, XElem.text,
      removeFirst_append_absent "Assinatura"
        (XElem.node "Assinatura" (some sig) []) uch hf rfl,
      removeFirst_of_none "Assinatura" uch hf]

theorem find_child_reassembleDebug (u : XElem) (sig : Str) :
    ∃ el : XElem, find_child (reassembleDebug u sig) "Assinatura" = some el ∧
      el.text = some sig := by
  obtain ⟨ut, ux, uch⟩ := u
  cases hf : findChildL "Assinatura" uch with
  | some a =>
    refine ⟨XElem.node a.tag (some sig) a.children, ?_, rfl⟩
    simp [reassembleDebug, find_child, XElem.children, hf,
      findChildL_setFirst "Assinatura" sig uch a hf]
  | none =>
    refine ⟨XElem.node "Assinatura" (some sig) [], ?_, rfl⟩
    simp [reassembleDebug, find_child, XElem.children, hf, findChildL_append,
      findChildL, XElem.tag]

theorem build_tpNFTS_bytes_reassembleDebug (u : XElem) (sig : Str) :
    build_tpNFTS_bytes (reassembleDebug u sig) = build_tpNFTS_bytes u := by
  unfold build_tpNFTS_bytes build_tpNFTS_string canonicalTpNFTS
  rw [stripAssin_reassembleDebug]

/-- C2: sign/verify round trip — for every record unit and every
compatible RSA key pair (with any deterministic hash-and-pad encoder kept
below the modulus, as EMSA-PKCS1-v1.5 with SHA-1 is for a matching key
size), signing the unit's canonical bytes with the private exponent and
then running the verifier on the reassembled signed unit — which strips
the signature field, recomputes the canonical bytes, strips whitespace
from the stored text and base64-decodes it — reports success. -/
theorem claim2_sign_verify_roundtrip (kp : RSAKeyPair) (pe : List ℕ → ℕ)
    (hpe : ∀ bs, pe bs < kp.n) (u : XElem) :
    verify_signed_nfts kp pe (sign_unit kp pe u) = some true := by
  have hnpos := kp.n_pos
  set m := pe (build_tpNFTS_bytes u) with hm
  set s := m ^ kp.d % kp.n with hs
  have hslt : s < kp.n := Nat.mod_lt _ hnpos
  have hsle : s < 256 ^ kp.k := lt_of_lt_of_le hslt kp.n_le
  set sigB := i2osp kp.k s with hsigB
  have htxt : pyJoinSplit (b64encode sigB) = b64encode sigB :=
    b64encode_no_space sigB
  set t0 := pyJoinSplit (b64encode sigB) with ht0
  have hjj : pyJoinSplit t0 = b64encode sigB := by
    rw [htxt]; exact b64encode_no_space sigB
  have hsign : sign_unit kp pe u = reassembleDebug u t0 := rfl
  obtain ⟨el, hel, heltxt⟩ := find_child_reassembleDebug u t0
  have hdec : b64decode (b64encode sigB) = some sigB :=
    b64decode_encode sigB (i2osp_lt kp.k s)
  have hbytes : build_tpNFTS_bytes (reassembleDebug u t0) =
      build_tpNFTS_bytes u :=
    build_tpNFTS_bytes_reassembleDebug u t0
  have hos : os2ip sigB = s := os2ip_i2osp kp.k s hsle
  have hrsa : s ^ kp.e % kp.n = m := by
    rw [hs, ← Nat.pow_mod]
    exact kp.inverts m (hpe _)
  rw [hsign]
  simp only [verify_signed_nfts, hel, heltxt, hjj, hdec, hbytes, hos, hrsa,
    ← hm]
  simp

/-- C2 witness: the toy compatible key pair and bounded encoder applied to
a concrete record unit — the signed unit verifies. -/
theorem claim2_witness :
    (∀ bs : List ℕ, toyEncode bs < toyKeyPair.n) ∧
    verify_signed_nfts toyKeyPair toyEncode
      (sign_unit toyKeyPair toyEncode sampleUnitE) = some true := by
  have h : ∀ bs : List ℕ, toyEncode bs < toyKeyPair.n :=
    fun bs => Nat.mod_lt _ (by norm_num)
  exact ⟨h, claim2_sign_verify_roundtrip toyKeyPair toyEncode h sampleUnitE⟩

/-! ## Lemmas: record reassembly -/

theorem dictFold_tag :
    ∀ (els : List XElem) (f : String → Option XElem),
      (∀ t el, f t = some el → el.tag = t) →
      ∀ t el, (els.foldl dictInsert f) t = some el → el.tag = t := by
  intro els
  induction els with
  | nil => intro f hf t el h; exact hf t el h
  | cons c rest ih =>
    intro f hf t el h
    refine ih (dictInsert f c) ?_ t el h
    intro t' el' h'
    by_cases ht' : t' = c.tag
    · simp only [dictInsert, if_pos ht', Option.some.injEq] at h'
      rw [← h', ht']
    · simp only [dictInsert, if_neg ht'] at h'
      exact hf t' el' h'

theorem dictFold_not_mem :
    ∀ (els : List XElem) (f : String → Option XElem) (t : String),
      ¬ t ∈ els.map XElem.tag → (els.foldl dictInsert f) t = f t := by
  intro els
  induction els with
  | nil => intro f t _; rfl
  | cons c rest ih =>
    intro f t ht
    have h1 : ¬ t ∈ rest.map XElem.tag := fun h => ht (by simp [h])
    have h2 : t ≠ c.tag := fun h => ht (by simp [h])
    simp only [List.foldl_cons, ih (dictInsert f c) t h1, dictInsert,
      if_neg h2]

theorem dictFold_mem_nodup :
    ∀ (els : List XElem) (f : String → Option XElem) (c : XElem),
      (els.map XElem.tag).Nodup → c ∈ els →
      (els.foldl dictInsert f) c.tag = some c := by
  intro els
  induction els with
  | nil => intro f c _ h; simp at h
  | cons hd rest ih =>
    intro f c hnd hmem
    simp only [List.map_cons, List.nodup_cons] at hnd
    rcases List.mem_cons.mp hmem with heq | hmem'
    · subst heq
      simp only [List.foldl_cons]
      rw [dictFold_not_mem rest (dictInsert f c) c.tag hnd.1]
      simp [dictInsert]
    · simp only [List.foldl_cons]
      exact ih (dictInsert f hd) c hnd.2 hmem'

theorem dictFold_isSome :
    ∀ (els : List XElem) (f : String → Option XElem) (t : String),
      ((els.foldl dictInsert f) t).isSome = true ↔
        t ∈ els.map XElem.tag ∨ (f t).isSome = true := by
  intro els
  induction els with
  | nil => intro f t; simp
  | cons c rest ih =>
    intro f t
    simp only [List.foldl_cons, ih (dictInsert f c) t, List.map_cons,
      List.mem_cons]
    constructor
    · rintro (h | h)
      · exact Or.inl (Or.inr h)
      · by_cases ht : t = c.tag
        · exact Or.inl (Or.inl ht)
        · simp only [dictInsert, if_neg ht] at h
          exact Or.inr h
    · rintro ((h | h) | h)
      · exact Or.inr (by simp [dictInsert, if_pos h])
      · exact Or.inl h
      · by_cases ht : t = c.tag
        · exact Or.inr (by simp [dictInsert, if_pos ht])
        · exact Or.inr (by simp only [dictInsert, if_neg ht]; exact h)

theorem filterMap_map_tag :
    ∀ (names : List String) (d : String → Option XElem),
      (∀ t el, d t = some el → el.tag = t) →
      (names.filterMap d).map XElem.tag =
        names.filter (fun t => (d t).isSome) := by
  intro names
  induction names with
  | nil => intro d _; rfl
  | cons t rest ih =>
    intro d hd
    cases hdt : d t with
    | none => simp [List.filterMap_cons, hdt, List.filter_cons, ih d hd]
    | some el =>
      have := hd t el hdt
      simp [List.filterMap_cons, hdt, List.filter_cons, ih d hd, this]

theorem filter_setFirst (sig : Str) :
    ∀ ch : List XElem,
      (setFirstTagText "Assinatura" sig ch).filter
          (fun c => !(c.tag == "Assinatura")) =
        ch.filter (fun c => !(c.tag == "Assinatura")) := by
  intro ch
  induction ch with
  | nil => rfl
  | cons c rest ih =>
    obtain ⟨ct, cx, cc⟩ := c
    have htag : (XElem.node ct cx cc).tag = ct := rfl
    have hch : (XElem.node ct cx cc).children = cc := rfl
    by_cases hc : ct = "Assinatura"
    · have hpc : ((XElem.node ct cx cc).tag == "Assinatura") = true := by
        rw [htag]; exact beq_iff_eq.mpr hc
      have hpc2 : ((XElem.node ct (some sig) cc).tag == "Assinatura") = true :=
        beq_iff_eq.mpr hc
      simp only [setFirstTagText, htag, hch, if_pos hc]
      rw [List.filter_cons, List.filter_cons]
      simp [hpc, hpc2]
    · have hpc : ((XElem.node ct cx cc).tag == "Assinatura") = false := by
        rw [htag]; simp [hc]
      simp only [setFirstTagText, htag, if_neg hc]
      rw [List.filter_cons, List.filter_cons]
      simp [hpc, ih]

/-- C3 counterexample: the novos-variant reassembly drops a field that is
present in the original unit but missing from `NFTS_ELEMENT_ORDER`
(`CustomField` here), so the claim that every original field appears
exactly once in the output is false as stated. -/
theorem claim3_counterexample :
    "CustomField" ∈ sampleUnitD.children.map XElem.tag ∧
    ¬ "CustomField" ∈
      (reassembleNovos sampleUnitD (S "SIG")).children.map XElem.tag := by
  decide

/-- C3 amended: in the novos variant, provided the original unit's child
tags are pairwise distinct and all listed in `NFTS_ELEMENT_ORDER`, the
reassembled unit keeps every original non-signature field, adds the
signature element, and its child tags are exactly the declared-order list
filtered to the present names — hence in full-schema order, each exactly
once, independent of the original order.  Fields with duplicate or
unlisted tags are dropped (see the counterexample).  The debug variant
does not reorder: it preserves all non-signature children verbatim. -/
theorem claim3_amended :
    (∀ (u : XElem) (sig : Str),
      (u.children.map XElem.tag).Nodup →
      (∀ c ∈ u.children, c.tag ∈ NFTS_ELEMENT_ORDER) →
      (∀ c ∈ u.children, c.tag ≠ "Assinatura" →
        c ∈ (reassembleNovos u sig).children) ∧
      (reassembleNovos u sig).children.map XElem.tag =
        NFTS_ELEMENT_ORDER.filter
          (fun t => t == "Assinatura" ||
            (u.children.map XElem.tag).contains t) ∧
      XElem.node "Assinatura" (some sig) [] ∈ (reassembleNovos u sig).children ∧
      ((reassembleNovos u sig).children.map XElem.tag).Nodup) ∧
    (∀ (u : XElem) (sig : Str),
      (reassembleDebug u sig).children.filter
          (fun c => !(c.tag == "Assinatura")) =
        u.children.filter (fun c => !(c.tag == "Assinatura"))) := by
  constructor
  · intro u sig hnd hsub
    set assinEl : XElem := XElem.node "Assinatura" (some sig) [] with hassin
    set d0 := dictOfChildren u.children with hd0
    set d1 := dictInsert d0 assinEl with hd1
    have hch : (reassembleNovos u sig).children =
        NFTS_ELEMENT_ORDER.filterMap d1 := by
      simp [reassembleNovos, XElem.children, hd1, hd0, hassin]
    have hd0tag : ∀ t el, d0 t = some el → el.tag = t := by
      intro t el h
      exact dictFold_tag u.children (fun _ => none) (by intro t' el' h'; cases h')
        t el h
    have hd1tag : ∀ t el, d1 t = some el → el.tag = t := by
      intro t el h
      by_cases ht : t = "Assinatura"
      · rw [hd1] at h
        simp only [dictInsert, hassin, XElem.tag, if_pos ht,
          Option.some.injEq] at h
        rw [← h, ht]
        rfl
      · rw [hd1] at h
        simp only [dictInsert, hassin, XElem.tag, if_neg ht] at h
        exact hd0tag t el h
    have hd1ne : ∀ t, t ≠ "Assinatura" → d1 t = d0 t := by
      intro t ht
      rw [hd1]
      simp [dictInsert, hassin, XElem.tag, ht]
    have hd1as : d1 "Assinatura" = some assinEl := by
      rw [hd1]; simp [dictInsert, hassin, XElem.tag]
    refine ⟨?_, ?_, ?_, ?_⟩
    · intro c hc hcne
      have hmem : d0 c.tag = some c := dictFold_mem_nodup u.children _ c hnd hc
      rw [hch]
      exact List.mem_filterMap.mpr ⟨c.tag, hsub c hc,
        (hd1ne c.tag hcne).trans hmem⟩
    · rw [hch, filterMap_map_tag NFTS_ELEMENT_ORDER d1 hd1tag]
      refine List.filter_congr ?_
      intro t _
      by_cases ht : t = "Assinatura"
      · simp [ht, hd1as]
      · have hd1d0 : d1 t = d0 t := hd1ne t ht
        rw [hd1d0]
        have hiff := dictFold_isSome u.children (fun _ => none) t
        simp only [Option.isSome_none, Bool.false_eq_true, or_false] at hiff
        have htb : (t == "Assinatura") = false := by
          simp [ht]
        by_cases hmem : t ∈ u.children.map XElem.tag
        · have h1 : (d0 t).isSome = true := by
            rw [hd0, dictOfChildren]; exact hiff.mpr hmem
          have h2 : (u.children.map XElem.tag).contains t = true :=
            List.elem_iff.mpr hmem
          rw [h1, htb, h2]
          rfl
        · have h1 : (d0 t).isSome = false := by
            rw [hd0, dictOfChildren]
            by_contra hcon
            simp only [Bool.not_eq_false] at hcon
            exact hmem (hiff.mp hcon)
          have h2 : (u.children.map XElem.tag).contains t = false := by
            by_contra hcon
            simp only [Bool.not_eq_false] at hcon
            exact hmem (List.elem_iff.mp hcon)
          rw [h1, htb, h2]
          rfl
    · rw [hch]
      exact List.mem_filterMap.mpr ⟨"Assinatura", by decide, hd1as⟩
    · rw [hch, filterMap_map_tag NFTS_ELEMENT_ORDER d1 hd1tag]
      exact List.Nodup.filter _ (by decide)
  · intro u sig
    obtain ⟨ut, ux, uch⟩ := u
    cases hf : findChildL "Assinatura" uch with
    | some a =>
      simp [reassembleDebug, find_child, XElem.children, hf, filter_setFirst]
    | none =>
      simp [reassembleDebug, find_child, XElem.children, hf,
        List.filter_append, XElem.tag]

/-- C3 witness: a well-behaved concrete unit (unique, known tags) given in
scrambled order is reassembled by the novos variant into exactly the
declared-order tag list with the signature present. -/
theorem claim3_witness :
    (sampleUnitE.children.map XElem.tag).Nodup ∧
    (∀ c ∈ sampleUnitE.children, c.tag ∈ NFTS_ELEMENT_ORDER) ∧
    (reassembleNovos sampleUnitE (S "SIG")).children.map XElem.tag =
      NFTS_ELEMENT_ORDER.filter
        (fun t => t == "Assinatura" ||
          (sampleUnitE.children.map XElem.tag).contains t) := by
  refine ⟨by decide, by decide, ?_⟩
  exact (claim3_amended.1 sampleUnitE (S "SIG") (by decide) (by decide)).2.1

/-! ## Lemmas: normalizer claims -/

theorem digitChar_isDigit : ∀ d < 10, (digitChar d).isDigit = true := by decide

theorem commaNbspFix_precomma (c : Char) :
    commaNbspFix (if c = ',' then '.' else c) = commaNbspFix c := by
  by_cases hc : c = ','
  · subst hc; decide
  · rw [if_neg hc]

theorem pyCleanF_precomma (t : Str) :
    pyCleanF (t.map (fun c => if c = ',' then '.' else c)) = pyCleanF t := by
  unfold pyCleanF
  rw [List.map_map]
  congr 1
  exact List.map_congr_left (fun c _ => commaNbspFix_precomma c)

theorem formatTwo_shape (neg : Bool) (m : ℕ) (p : ℤ) :
    ∃ pre d1 d2, formatTwo neg m p = pre ++ '.' :: [d1, d2] ∧
      d1.isDigit = true ∧ d2.isDigit = true := by
  refine ⟨signStr neg ++ natRender (scaledTwo m p / 100),
    digitChar (scaledTwo m p % 100 / 10),
    digitChar (scaledTwo m p % 100 % 10), ?_, ?_, ?_⟩
  · simp [formatTwo, pad2, List.append_assoc]
  · exact digitChar_isDigit _ (by omega)
  · exact digitChar_isDigit _ (by omega)

/-- C5: the CurrencyDecimal normalizer substitutes commas by periods
before the decimal parse (pre-substituting commas is a no-op), renders a
parseable result with exactly two fractional digits, turns `" 3,5 "` into
`"3.50"`, and passes `"1.234,5"` through as the cleaned, unparseable
`"1.234.5"`. -/
theorem claim5_currency_decimal :
    normalize_float_value (some (S " 3,5 ")) true = S "3.50" ∧
    normalize_float_value (some (S "1.234,5")) true = S "1.234.5" ∧
    pyFloatParse (pyCleanF (S "1.234,5")) = none ∧
    (∀ t : Str, normalize_float_value
        (some (t.map (fun c => if c = ',' then '.' else c))) true =
      normalize_float_value (some t) true) ∧
    (∀ (t : Str) (neg : Bool) (m : ℕ) (p : ℤ),
      pyFloatParse (pyCleanF t) = some (neg, m, p) →
      ∃ pre d1 d2, normalize_float_value (some t) true =
          pre ++ '.' :: [d1, d2] ∧ d1.isDigit = true ∧ d2.isDigit = true) := by
  refine ⟨by decide, by decide, by decide, ?_, ?_⟩
  · intro t
    simp [normalize_float_value, pyCleanF_precomma]
  · intro t neg m p hp
    have hv : normalize_float_value (some t) true = formatTwo neg m p := by
      simp [normalize_float_value, hp]
    rw [hv]
    exact formatTwo_shape neg m p

/-- C5 witness: the two-fractional-digit shape at the concrete parseable
input `" 3,5 "`. -/
theorem claim5_witness :
    pyFloatParse (pyCleanF (S " 3,5 ")) = some (false, 35, -1) ∧
    ∃ pre d1 d2, normalize_float_value (some (S " 3,5 ")) true =
        pre ++ '.' :: [d1, d2] ∧ d1.isDigit = true ∧ d2.isDigit = true :=
  ⟨by decide,
   claim5_currency_decimal.2.2.2.2 (S " 3,5 ") false 35 (-1) (by decide)⟩

/-- C6 counterexample: the novos-variant `normalize_serie_nfts` only
cleans — on `"AB"` it returns `"AB"`, not the claimed 5-character padded
`"AB   "`, so the claim is false for that cited source. -/
theorem claim6_counterexample :
    normalize_serie_nfts_novos (some (S "AB")) = S "AB" ∧
    ¬ normalize_serie_nfts_novos (some (S "AB")) = S "AB   " := by
  decide

/-- C6 amended: the debug-variant `normalize_serie_nfts` cleans and then
right-pads with spaces to exactly 5 characters, truncating longer input,
for every input string; the novos variant only cleans, without padding or
truncation. -/
theorem claim6_amended :
    (∀ t : Str, (normalize_serie_nfts (some t)).length = 5) ∧
    normalize_serie_nfts (some (S "AB")) = S "AB   " ∧
    normalize_serie_nfts (some (S "ABCDEFG")) = S "ABCDE" ∧
    (∀ t : Str, normalize_serie_nfts_novos (some t) = pyClean t) := by
  refine ⟨?_, by decide, by decide, fun t => rfl⟩
  intro t
  have h5 : (S "     ").length = 5 := by decide
  simp only [normalize_serie_nfts, List.length_take, List.length_append, h5]
  omega

/-- C9: every per-kind normalizer is total — `None` inputs yield the fixed
defaults, and on any string the numeric and decimal normalizers either
return a rendered number or fall back to the cleaned input verbatim (in
particular on non-numeric text and on digit-like characters such as the
superscript two, which `isdigit` accepts but `int()` rejects), while the
boolean normalizer always returns one of the two literals. -/
theorem claim9_normalizers_total :
    normalize_numeric_string none = [] ∧
    (∀ b : Bool, normalize_float_value none b = []) ∧
    normalize_boolean_value none = S "false" ∧
    normalize_serie_nfts none = S "     " ∧
    normalize_serie_nfts_novos none = S "     " ∧
    (∀ t : Str, normalize_numeric_string (some t) = pyClean t ∨
      ∃ n : ℕ, normalize_numeric_string (some t) = natRender n) ∧
    (∀ (t : Str) (b : Bool), normalize_float_value (some t) b = pyCleanF t ∨
      ∃ (neg : Bool) (m : ℕ) (p : ℤ),
        pyFloatParse (pyCleanF t) = some (neg, m, p) ∧
        normalize_float_value (some t) b =
          (if b then formatTwo neg m p else pyReprFloat neg m p)) ∧
    (∀ t : Str, normalize_boolean_value (some t) = S "true" ∨
      normalize_boolean_value (some t) = S "false") ∧
    (pyIsDigitChar '²' = true ∧ pyIntDigitVal '²' = none ∧
      normalize_numeric_string (some ['²']) = ['²']) := by
  refine ⟨rfl, fun b => rfl, rfl, rfl, rfl, ?_, ?_, ?_, by decide⟩
  · intro t
    by_cases hd : pyClean t ≠ [] ∧ (pyClean t).all pyIsDigitChar
    · cases hp : pyIntParse (pyClean t) with
      | none =>
        refine Or.inl ?_
        simp only [normalize_numeric_string]
        rw [if_pos hd, hp]
      | some n =>
        refine Or.inr ⟨n, ?_⟩
        simp only [normalize_numeric_string]
        rw [if_pos hd, hp]
    · refine Or.inl ?_
      simp only [normalize_numeric_string]
      rw [if_neg hd]
  · intro t b
    cases hp : pyFloatParse (pyCleanF t) with
    | none => exact Or.inl (by simp [normalize_float_value, hp])
    | some lit =>
      obtain ⟨neg, m, p⟩ := lit
      refine Or.inr ⟨neg, m, p, rfl, ?_⟩
      simp only [normalize_float_value, hp]
  · intro t
    by_cases hm : (pyClean t).map pyLowerChar ∈ boolTrueWords
    · exact Or.inl (by simp [normalize_boolean_value, hm])
    · exact Or.inr (by simp [normalize_boolean_value, hm])

/-- C10: a Boolean-kind field present in the unit always reaches the
canonical fragment — the normalizer maps exactly the cleaned, lowercased
keyword set to `"true"` and everything else (including the empty string)
to `"false"`, never to the empty string, so `build_fragment` emits the
element whenever the child exists, unlike the empty-equals-absent optional
fields. -/
theorem claim10_boolean_never_pruned :
    (∀ t : Str, normalize_boolean_value (some t) = S "true" ↔
      (pyClean t).map pyLowerChar ∈ boolTrueWords) ∧
    normalize_boolean_value (some []) = S "false" ∧
    (∀ t : Str, 0 < (normalize_boolean_value (some t)).length) ∧
    (∀ (n : XElem) (tag : String),
      buildOne normKindDebug n tag (.leaf "bool") =
        ((find_child n tag).map
          (fun c => XElem.node tag
            (some (normalize_boolean_value (some (textD c)))) [])).toList) ∧
    buildOne normKindDebug
        (XElem.node "NFTS" none [leafEl "ISSRetidoTomador" ""])
        "ISSRetidoTomador" (.leaf "bool") =
      [XElem.node "ISSRetidoTomador" (some (S "false")) []] := by
  have hne : ∀ t : Str, 0 < (normalize_boolean_value (some t)).length := by
    intro t
    by_cases hm : (pyClean t).map pyLowerChar ∈ boolTrueWords
    · simp [normalize_boolean_value, hm, S]
    · simp [normalize_boolean_value, hm, S]
  refine ⟨?_, rfl, hne, ?_, rfl⟩
  · intro t
    by_cases hm : (pyClean t).map pyLowerChar ∈ boolTrueWords
    · simp [normalize_boolean_value, hm]
    · simp [normalize_boolean_value, hm, S]
  · intro n tag
    cases hf : find_child n tag with
    | none => simp [buildOne, hf]
    | some c =>
      have hb : normKindDebug "bool" (textD c) =
          normalize_boolean_value (some (textD c)) := by
        simp [normKindDebug]
      have hlen := hne (textD c)
      have hbnil : normalize_boolean_value (some (textD c)) ≠ [] := by
        intro hcon
        rw [hcon] at hlen
        exact Nat.lt_irrefl 0 hlen
      simp [buildOne, hf, hb, hbnil]

/-! ## Lemmas: cleaning is idempotent -/

theorem dropWhile_all_false {p : Char → Bool} :
    ∀ l : Str, (∀ c ∈ l, p c = false) → l.dropWhile p = l := by
  intro l h
  induction l with
  | nil => rfl
  | cons a t ih =>
    have ha : p a = false := h a (by simp)
    simp [List.dropWhile_cons, ha]

theorem dropWhile_idem {p : Char → Bool} (l : Str) :
    (l.dropWhile p).dropWhile p = l.dropWhile p := by
  induction l with
  | nil => rfl
  | cons a t ih =>
    by_cases ha : p a = true
    · simp [List.dropWhile_cons, ha, ih]
    · simp only [Bool.not_eq_true] at ha
      simp [List.dropWhile_cons, ha]

theorem dropWhile_of_eq_self_prefix {p : Char → Bool} :
    ∀ x y zs : Str, x.dropWhile p = x → x = y ++ zs → y.dropWhile p = y := by
  intro x y zs hx hsplit
  cases y with
  | nil => rfl
  | cons a t =>
    have hxa : ∃ r, x = a :: r := ⟨t ++ zs, by simp [hsplit]⟩
    obtain ⟨r, hr⟩ := hxa
    have hpa : p a = false := by
      by_contra hcon
      simp only [Bool.not_eq_false] at hcon
      rw [hr] at hx
      simp only [List.dropWhile_cons, hcon, if_pos] at hx
      have := (List.dropWhile_suffix (l := r) p).length_le
      rw [hx] at this
      simp at this
    simp [List.dropWhile_cons, hpa]

theorem pyStrip_sub (l : Str) : ∀ c ∈ pyStrip l, c ∈ l := by
  intro c hc
  unfold pyStrip at hc
  rw [List.mem_reverse] at hc
  have h1 := (List.dropWhile_suffix (l := (l.dropWhile isPySpace).reverse)
    isPySpace).subset hc
  rw [List.mem_reverse] at h1
  exact (List.dropWhile_suffix (l := l) isPySpace).subset h1

theorem pyStrip_idem (l : Str) : pyStrip (pyStrip l) = pyStrip l := by
  set p := isPySpace
  set A := l.dropWhile p with hA
  set B := A.reverse.dropWhile p with hB
  have hs : pyStrip l = B.reverse := rfl
  have hBdrop : B.dropWhile p = B := by rw [hB]; exact dropWhile_idem _
  have hAdrop : A.dropWhile p = A := by rw [hA]; exact dropWhile_idem _
  have hsdrop : B.reverse.dropWhile p = B.reverse := by
    obtain ⟨zs, hzs⟩ := List.dropWhile_suffix (l := A.reverse) p
    have hsplit : A = B.reverse ++ zs.reverse := by
      have := congrArg List.reverse hzs
      simpa using this.symm
    exact dropWhile_of_eq_self_prefix A B.reverse zs.reverse hAdrop hsplit
  rw [hs]
  show ((B.reverse.dropWhile p).reverse.dropWhile p).reverse = B.reverse
  rw [hsdrop, List.reverse_reverse, hBdrop]

theorem pyStrip_no_space_id (l : Str) (h : ∀ c ∈ l, isPySpace c = false) :
    pyStrip l = l := by
  unfold pyStrip
  rw [dropWhile_all_false l h]
  rw [dropWhile_all_false l.reverse (fun c hc => h c (List.mem_reverse.mp hc))]
  exact List.reverse_reverse l

theorem map_id_of_mem {f : Char → Char} :
    ∀ l : Str, (∀ c ∈ l, f c = c) → l.map f = l := by
  intro l h
  calc l.map f = l.map id := List.map_congr_left h
  _ = l := List.map_id l

theorem nbspFix_idem (c : Char) : nbspFix (nbspFix c) = nbspFix c := by
  by_cases hc : c = nbspChar
  · subst hc; decide
  · simp [nbspFix, hc]

theorem commaNbspFix_idem (c : Char) :
    commaNbspFix (commaNbspFix c) = commaNbspFix c := by
  by_cases hc : c = nbspChar
  · subst hc; decide
  · by_cases hcc : c = ','
    · subst hcc; decide
    · simp [commaNbspFix, nbspFix, hc, hcc]

theorem pyClean_idem (l : Str) : pyClean (pyClean l) = pyClean l := by
  unfold pyClean
  have hmap : (pyStrip (l.map nbspFix)).map nbspFix = pyStrip (l.map nbspFix) := by
    refine map_id_of_mem _ ?_
    intro c hc
    have hmem := pyStrip_sub (l.map nbspFix) c hc
    obtain ⟨a, _, ha⟩ := List.mem_map.mp hmem
    rw [← ha]
    exact nbspFix_idem a
  rw [hmap, pyStrip_idem]

theorem pyCleanF_idem (l : Str) : pyCleanF (pyCleanF l) = pyCleanF l := by
  unfold pyCleanF
  have hmap : (pyStrip (l.map commaNbspFix)).map commaNbspFix =
      pyStrip (l.map commaNbspFix) := by
    refine map_id_of_mem _ ?_
    intro c hc
    have hmem := pyStrip_sub (l.map commaNbspFix) c hc
    obtain ⟨a, _, ha⟩ := List.mem_map.mp hmem
    rw [← ha]
    exact commaNbspFix_idem a
  rw [hmap, pyStrip_idem]

theorem pyClean_id_of (l : Str) (h : ∀ c ∈ l, nbspFix c = c ∧ isPySpace c = false) :
    pyClean l = l := by
  unfold pyClean
  rw [map_id_of_mem l (fun c hc => (h c hc).1)]
  exact pyStrip_no_space_id l (fun c hc => (h c hc).2)

theorem pyCleanF_id_of (l : Str)
    (h : ∀ c ∈ l, commaNbspFix c = c ∧ isPySpace c = false) :
    pyCleanF l = l := by
  unfold pyCleanF
  rw [map_id_of_mem l (fun c hc => (h c hc).1)]
  exact pyStrip_no_space_id l (fun c hc => (h c hc).2)

/-! ## Lemmas: decimal rendering and digit runs -/

theorem natRenderAux_mono : ∀ (n f g : ℕ), n < f → n < g →
    natRenderAux f n = natRenderAux g n := by
  intro n
  induction n using Nat.strong_induction_on with
  | _ n ih =>
    intro f g hf hg
    obtain ⟨f', rfl⟩ : ∃ f', f = f' + 1 := ⟨f - 1, by omega⟩
    obtain ⟨g', rfl⟩ : ∃ g', g = g' + 1 := ⟨g - 1, by omega⟩
    by_cases h10 : n < 10
    · simp [natRenderAux, h10]
    · simp only [natRenderAux, if_neg h10]
      have h1 : n / 10 < n := by omega
      congr 1
      exact ih (n / 10) h1 f' g' (by omega) (by omega)

theorem natRender_lt (n : ℕ) (h : n < 10) : natRender n = [digitChar n] := by
  simp [natRender, natRenderAux, h]

theorem natRender_ge (n : ℕ) (h : 10 ≤ n) :
    natRender n = natRender (n / 10) ++ [digitChar (n % 10)] := by
  have h10 : ¬ n < 10 := by omega
  show natRenderAux (n + 1) n = _
  obtain ⟨f', hf⟩ : ∃ f', n + 1 = f' + 1 := ⟨n, rfl⟩
  simp only [natRenderAux, if_neg h10]
  congr 1
  exact natRenderAux_mono (n / 10) n (n / 10 + 1) (by omega) (by omega)

theorem natRender_mem : ∀ (n : ℕ) (c : Char), c ∈ natRender n →
    ∃ d, d < 10 ∧ c = digitChar d := by
  intro n
  induction n using Nat.strong_induction_on with
  | _ n ih =>
    intro c hc
    by_cases h10 : n < 10
    · rw [natRender_lt n h10] at hc
      simp only [List.mem_singleton] at hc
      exact ⟨n, h10, hc⟩
    · rw [natRender_ge n (by omega)] at hc
      rcases List.mem_append.mp hc with h | h
      · exact ih (n / 10) (by omega) c h
      · simp only [List.mem_singleton] at h
        exact ⟨n % 10, by omega, h⟩

theorem natRender_head : ∀ n : ℕ, ∃ d cs, d < 10 ∧
    natRender n = digitChar d :: cs := by
  intro n
  induction n using Nat.strong_induction_on with
  | _ n ih =>
    by_cases h10 : n < 10
    · exact ⟨n, [], h10, natRender_lt n h10⟩
    · obtain ⟨d, cs, hd, hds⟩ := ih (n / 10) (by omega)
      exact ⟨d, cs ++ [digitChar (n % 10)], hd, by
        rw [natRender_ge n (by omega), hds]; simp⟩

theorem digit_facts : ∀ d < 10, pyIntDigitVal (digitChar d) = some d ∧
    isPySpace (digitChar d) = false ∧
    nbspFix (digitChar d) = digitChar d ∧
    commaNbspFix (digitChar d) = digitChar d ∧
    digitChar d ≠ '.' ∧ digitChar d ≠ 'e' ∧ digitChar d ≠ 'E' ∧
    digitChar d ≠ '-' ∧ digitChar d ≠ '+' ∧
    pyIsDigitChar (digitChar d) = true := by decide

theorem valOfD_append (l1 l2 : Str) (v : ℕ) :
    valOfD (l1 ++ l2) v = valOfD l2 (valOfD l1 v) := by
  simp [valOfD, List.foldl_append]

theorem valOfD_linear : ∀ (l : Str) (v : ℕ),
    valOfD l v = v * 10 ^ l.length + valOfD l 0 := by
  intro l
  induction l with
  | nil => intro v; simp [valOfD]
  | cons c t ih =>
    intro v
    show valOfD t (10 * v + (pyIntDigitVal c).getD 0) = _
    rw [ih (10 * v + (pyIntDigitVal c).getD 0)]
    have hr : valOfD (c :: t) 0 = valOfD t ((pyIntDigitVal c).getD 0) := by
      simp [valOfD]
    rw [hr, ih ((pyIntDigitVal c).getD 0)]
    simp [List.length_cons]
    ring

theorem valOfD_natRender : ∀ n : ℕ, valOfD (natRender n) 0 = n := by
  intro n
  induction n using Nat.strong_induction_on with
  | _ n ih =>
    by_cases h10 : n < 10
    · rw [natRender_lt n h10]
      simp [valOfD, (digit_facts n h10).1]
    · rw [natRender_ge n (by omega), valOfD_append]
      rw [ih (n / 10) (by omega)]
      simp [valOfD, (digit_facts (n % 10) (by omega)).1]
      omega

theorem natRender_all_digit (n : ℕ) :
    ∀ ch ∈ natRender n, (pyIntDigitVal ch).isSome = true := by
  intro ch hch
  obtain ⟨d, hd, rfl⟩ := natRender_mem n ch hch
  simp [(digit_facts d hd).1]

theorem takeDigs_cons_nondigit (ch : Char) (r : Str) (v c : ℕ)
    (h : pyIntDigitVal ch = none) :
    takeDigs (ch :: r) v c = (v, c, ch :: r) := by
  simp [takeDigs, h]

theorem takeDigs_digits_append :
    ∀ l : Str, (∀ ch ∈ l, (pyIntDigitVal ch).isSome = true) →
    ∀ (v c : ℕ) (rest : Str),
      takeDigs (l ++ rest) v c = takeDigs rest (valOfD l v) (c + l.length) := by
  intro l
  induction l with
  | nil => intro _ v c rest; simp [valOfD]
  | cons ch t ih =>
    intro h v c rest
    obtain ⟨d, hd⟩ := Option.isSome_iff_exists.mp (h ch (by simp))
    have ht : ∀ x ∈ t, (pyIntDigitVal x).isSome = true :=
      fun x hx => h x (by simp [hx])
    simp only [List.cons_append, takeDigs, hd]
    show takeDigs (t ++ rest) (10 * v + d) (c + 1) = _
    rw [ih ht (10 * v + d) (c + 1) rest]
    have hv : valOfD (ch :: t) v = valOfD t (10 * v + d) := by
      simp [valOfD, hd]
    rw [hv]
    congr 1
    simp [List.length_cons]
    omega

theorem pyIntParse_digits :
    ∀ l : Str, (∀ ch ∈ l, (pyIntDigitVal ch).isSome = true) →
    ∀ acc : ℕ,
      l.foldl (fun a c => a.bind fun v => (pyIntDigitVal c).map fun d => 10 * v + d)
        (some acc) = some (valOfD l acc) := by
  intro l
  induction l with
  | nil => intro _ acc; simp [valOfD]
  | cons ch t ih =>
    intro h acc
    obtain ⟨d, hd⟩ := Option.isSome_iff_exists.mp (h ch (by simp))
    have ht : ∀ x ∈ t, (pyIntDigitVal x).isSome = true :=
      fun x hx => h x (by simp [hx])
    simp only [List.foldl_cons, hd]
    show List.foldl
      (fun a c => a.bind fun v => (pyIntDigitVal c).map fun dd => 10 * v + dd)
      (some (10 * acc + d)) t = _
    rw [ih ht (10 * acc + d)]
    congr 1
    simp [valOfD, hd]

theorem splitSign_digit (d : ℕ) (hd : d < 10) (r : Str) :
    splitSign (digitChar d :: r) = (false, digitChar d :: r) := by
  have h1 := (digit_facts d hd).2.2.2.2.2.2.2.1
  have h2 := (digit_facts d hd).2.2.2.2.2.2.2.2.1
  simp [splitSign, h1, h2]

theorem splitSign_signStr_digit (neg : Bool) (d : ℕ) (hd : d < 10) (r : Str) :
    splitSign (signStr neg ++ digitChar d :: r) = (neg, digitChar d :: r) := by
  cases neg with
  | true => simp [signStr, splitSign]
  | false => simp [signStr, splitSign_digit d hd r]

/-! ## Lemmas: stripping ten factors -/

theorem stripTensAux_mono : ∀ (m f g : ℕ), m < f → m < g →
    stripTensAux f m = stripTensAux g m := by
  intro m
  induction m using Nat.strong_induction_on with
  | _ m ih =>
    intro f g hf hg
    obtain ⟨f', rfl⟩ : ∃ f', f = f' + 1 := ⟨f - 1, by omega⟩
    obtain ⟨g', rfl⟩ : ∃ g', g = g' + 1 := ⟨g - 1, by omega⟩
    by_cases h0 : m = 0
    · simp [stripTensAux, h0]
    · by_cases h10 : m % 10 = 0
      · simp only [stripTensAux, if_neg h0, if_pos h10]
        rw [ih (m / 10) (by omega) f' g' (by omega) (by omega)]
      · simp [stripTensAux, h0, h10]

theorem stripTens_not_dvd (m : ℕ) (h0 : m ≠ 0) (h10 : m % 10 ≠ 0) :
    stripTens m = (m, 0) := by
  show stripTensAux (m + 1) m = _
  simp [stripTensAux, h0, h10]

theorem stripTens_dvd (m : ℕ) (h0 : m ≠ 0) (h10 : m % 10 = 0) :
    stripTens m = ((stripTens (m / 10)).1, (stripTens (m / 10)).2 + 1) := by
  show stripTensAux (m + 1) m = _
  simp only [stripTensAux, if_neg h0, if_pos h10]
  rw [stripTensAux_mono (m / 10) m (m / 10 + 1) (by omega) (by omega)]
  rfl

theorem stripTens_spec : ∀ m : ℕ, m ≠ 0 → (stripTens m).1 ≠ 0 ∧
    (stripTens m).1 % 10 ≠ 0 ∧ m = (stripTens m).1 * 10 ^ (stripTens m).2 := by
  intro m
  induction m using Nat.strong_induction_on with
  | _ m ih =>
    intro h0
    by_cases h10 : m % 10 = 0
    · have hm10 : m / 10 ≠ 0 := by omega
      obtain ⟨ha, hb, hc⟩ := ih (m / 10) (by omega) hm10
      rw [stripTens_dvd m h0 h10]
      refine ⟨ha, hb, ?_⟩
      have hm : m = m / 10 * 10 := by omega
      calc m = m / 10 * 10 := hm
      _ = (stripTens (m / 10)).1 * 10 ^ (stripTens (m / 10)).2 * 10 := by
        rw [← hc]
      _ = (stripTens (m / 10)).1 * 10 ^ ((stripTens (m / 10)).2 + 1) := by
        ring
    · rw [stripTens_not_dvd m h0 h10]
      exact ⟨h0, h10, by ring⟩

theorem stripTens_mul_pow (m : ℕ) (h0 : m ≠ 0) (h10 : m % 10 ≠ 0) :
    ∀ j : ℕ, stripTens (m * 10 ^ j) = (m, j) := by
  intro j
  induction j with
  | zero => simpa using stripTens_not_dvd m h0 h10
  | succ j ih =>
    have hx0 : m * 10 ^ (j + 1) ≠ 0 := by positivity
    have hx10 : m * 10 ^ (j + 1) % 10 = 0 := by
      have : m * 10 ^ (j + 1) = m * 10 ^ j * 10 := by ring
      omega
    rw [stripTens_dvd _ hx0 hx10]
    have hdiv : m * 10 ^ (j + 1) / 10 = m * 10 ^ j := by
      have : m * 10 ^ (j + 1) = m * 10 ^ j * 10 := by ring
      omega
    rw [hdiv, ih]

/-! ## Lemmas: rendered floats reparse to themselves -/

theorem goodF_digit (d : ℕ) (hd : d < 10) :
    commaNbspFix (digitChar d) = digitChar d ∧
    isPySpace (digitChar d) = false :=
  ⟨(digit_facts d hd).2.2.2.1, (digit_facts d hd).2.1⟩

theorem goodF_special : ∀ c ∈ ['-', '+', '.', 'e', 'E', '0'],
    commaNbspFix c = c ∧ isPySpace c = false := by decide

theorem signStr_clean (neg : Bool) : ∀ c ∈ signStr neg,
    commaNbspFix c = c ∧ isPySpace c = false := by
  cases neg with
  | true =>
    intro c hc
    simp only [signStr, if_pos, List.mem_singleton] at hc
    subst hc; decide
  | false => intro c hc; simp [signStr] at hc

theorem natRender_clean (n : ℕ) : ∀ c ∈ natRender n,
    commaNbspFix c = c ∧ isPySpace c = false := by
  intro c hc
  obtain ⟨d, hd, rfl⟩ := natRender_mem n c hc
  exact goodF_digit d hd

theorem pad2_clean (x : ℕ) (hx : x < 100) : ∀ c ∈ pad2 x,
    commaNbspFix c = c ∧ isPySpace c = false := by
  intro c hc
  simp only [pad2, List.mem_cons, List.not_mem_nil, or_false] at hc
  rcases hc with h | h
  · subst h; exact goodF_digit _ (by omega)
  · subst h; exact goodF_digit _ (by omega)

theorem formatTwo_clean (neg : Bool) (m : ℕ) (p : ℤ) :
    ∀ c ∈ formatTwo neg m p, commaNbspFix c = c ∧ isPySpace c = false := by
  intro c hc
  simp only [formatTwo, List.append_assoc, List.mem_append, List.mem_cons] at hc
  rcases hc with h | h | h | h
  · exact signStr_clean neg c h
  · exact natRender_clean _ c h
  · subst h; decide
  · exact pad2_clean _ (by omega) c h

theorem dot_nondigit : pyIntDigitVal '.' = none := by decide
theorem e_nondigit : pyIntDigitVal 'e' = none := by decide

theorem parse_formatTwo (neg : Bool) (m : ℕ) (p : ℤ) :
    pyFloatParse (formatTwo neg m p) = some (neg, scaledTwo m p, -2) := by
  set q := scaledTwo m p with hq
  obtain ⟨d, cs, hd, hds⟩ := natRender_head (q / 100)
  have hbody : formatTwo neg m p =
      signStr neg ++ digitChar d :: (cs ++ '.' :: pad2 (q % 100)) := by
    simp only [formatTwo, ← hq, hds]
    simp
  have hsign : splitSign (formatTwo neg m p) =
      (neg, digitChar d :: (cs ++ '.' :: pad2 (q % 100))) := by
    rw [hbody]
    exact splitSign_signStr_digit neg d hd _
  have hdig1 : takeDigs (natRender (q / 100) ++ '.' :: pad2 (q % 100)) 0 0 =
      takeDigs ('.' :: pad2 (q % 100)) (q / 100) (natRender (q / 100)).length := by
    rw [takeDigs_digits_append (natRender (q / 100)) (natRender_all_digit _)]
    rw [show valOfD (natRender (q / 100)) 0 = q / 100 from valOfD_natRender _]
    simp
  have hstop : takeDigs ('.' :: pad2 (q % 100)) (q / 100)
      (natRender (q / 100)).length =
      (q / 100, (natRender (q / 100)).length, '.' :: pad2 (q % 100)) :=
    takeDigs_cons_nondigit '.' _ _ _ dot_nondigit
  have hfrac : takeDigs (pad2 (q % 100)) 0 0 = (q % 100, 2, []) := by
    have hlt : q % 100 < 100 := by omega
    have h1 := (digit_facts (q % 100 / 10) (by omega)).1
    have h2 := (digit_facts (q % 100 % 10) (by omega)).1
    simp only [pad2, takeDigs, h1, h2]
    congr 1
    omega
  simp only [pyFloatParse, hsign]
  rw [show digitChar d :: (cs ++ '.' :: pad2 (q % 100)) =
    natRender (q / 100) ++ '.' :: pad2 (q % 100) by rw [hds]; simp]
  rw [hdig1, hstop]
  simp only [if_pos rfl, hfrac]
  have hlen : (natRender (q / 100)).length ≠ 0 := by
    rw [hds]; simp
  rw [if_neg (show ¬ ((natRender (q / 100)).length + 2 = 0) from by omega)]
  have hq2 : q / 100 * 10 ^ 2 + q % 100 = q := by omega
  have hq3 : q / 100 * 100 + q % 100 = q := by omega
  simp [parseExp, hq2, hq3]

theorem scaledTwo_self (q : ℕ) : scaledTwo q (-2) = q := by
  simp [scaledTwo]

theorem formatTwo_renorm (neg : Bool) (m : ℕ) (p : ℤ) :
    normalize_float_value (some (formatTwo neg m p)) true = formatTwo neg m p := by
  have hclean : pyCleanF (formatTwo neg m p) = formatTwo neg m p :=
    pyCleanF_id_of _ (formatTwo_clean neg m p)
  simp only [normalize_float_value, hclean, parse_formatTwo, if_pos]
  show formatTwo neg (scaledTwo m p) (-2) = formatTwo neg m p
  simp [formatTwo, scaledTwo_self]

theorem takeDigs_full (l : Str) (h : ∀ ch ∈ l, (pyIntDigitVal ch).isSome = true)
    (v c : ℕ) : takeDigs l v c = (valOfD l v, c + l.length, []) := by
  have := takeDigs_digits_append l h v c []
  rw [List.append_nil] at this
  rw [this]
  rfl

theorem valOfD_zeros : ∀ (j : ℕ) (v : ℕ),
    valOfD (List.replicate j '0') v = v * 10 ^ j := by
  intro j
  induction j with
  | zero => intro v; simp [valOfD]
  | succ j ih =>
    intro v
    rw [List.replicate_succ]
    show valOfD (List.replicate j '0') (10 * v + (pyIntDigitVal '0').getD 0) = _
    rw [ih]
    have : (pyIntDigitVal '0').getD 0 = 0 := by decide
    rw [this]
    ring

theorem zeros_all_digit (j : ℕ) :
    ∀ ch ∈ List.replicate j '0', (pyIntDigitVal ch).isSome = true := by
  intro ch hch
  rw [List.eq_of_mem_replicate hch]
  decide

theorem parse_fixed_nonneg (neg : Bool) (m j : ℕ) :
    pyFloatParse (signStr neg ++ natRender m ++ List.replicate j '0' ++ S ".0") =
      some (neg, m * 10 ^ (j + 1), -1) := by
  obtain ⟨d, cs, hd, hds⟩ := natRender_head m
  have hsign : splitSign (signStr neg ++ natRender m ++ List.replicate j '0' ++ S ".0") =
      (neg, natRender m ++ List.replicate j '0' ++ S ".0") := by
    have key : signStr neg ++ natRender m ++ List.replicate j '0' ++ S ".0" =
        signStr neg ++ digitChar d :: (cs ++ List.replicate j '0' ++ S ".0") := by
      rw [hds]; simp
    rw [key, splitSign_signStr_digit neg d hd, hds]
    simp
  simp only [pyFloatParse, hsign]
  have h1 : natRender m ++ List.replicate j '0' ++ S ".0" =
      (natRender m ++ List.replicate j '0') ++ ('.' :: ['0']) := by
    simp [S]
  rw [h1]
  have hall : ∀ ch ∈ natRender m ++ List.replicate j '0',
      (pyIntDigitVal ch).isSome = true := by
    intro ch hch
    rcases List.mem_append.mp hch with h | h
    · exact natRender_all_digit m ch h
    · exact zeros_all_digit j ch h
  rw [takeDigs_digits_append _ hall 0 0]
  rw [takeDigs_cons_nondigit '.' _ _ _ dot_nondigit]
  have hval : valOfD (natRender m ++ List.replicate j '0') 0 = m * 10 ^ j := by
    rw [valOfD_append, valOfD_natRender, valOfD_zeros]
  have hfrac : takeDigs ['0'] 0 0 = (0, 1, []) := by decide
  simp only [hfrac, hval]
  have hlen : (natRender m).length ≠ 0 := by rw [hds]; simp
  rw [if_neg (show ¬ (0 + (natRender m ++ List.replicate j '0').length + 1 = 0)
    from by simp)]
  have hm : m * 10 ^ j * 10 = m * 10 ^ (j + 1) := by ring
  simp [parseExp, hm]

theorem parse_fixed_small (neg : Bool) (m k : ℕ) (hk : 0 < k)
    (hkn : k < (natRender m).length) :
    pyFloatParse (signStr neg ++ (natRender m).take ((natRender m).length - k) ++
      '.' :: (natRender m).drop ((natRender m).length - k)) =
      some (neg, m, -(k : ℤ)) := by
  obtain ⟨d, cs, hd, hds⟩ := natRender_head m
  have hj1 : (natRender m).length - k = ((natRender m).length - k - 1) + 1 := by omega
  have htake : (natRender m).take ((natRender m).length - k) =
      digitChar d :: cs.take ((natRender m).length - k - 1) := by
    rw [hj1, hds]
    rfl
  have hkey : signStr neg ++ (natRender m).take ((natRender m).length - k) ++
      '.' :: (natRender m).drop ((natRender m).length - k) =
      signStr neg ++ digitChar d :: (cs.take ((natRender m).length - k - 1) ++
        '.' :: (natRender m).drop ((natRender m).length - k)) := by
    rw [htake]; simp
  have hsign : splitSign (signStr neg ++
      (natRender m).take ((natRender m).length - k) ++
      '.' :: (natRender m).drop ((natRender m).length - k)) =
      (neg, digitChar d :: (cs.take ((natRender m).length - k - 1) ++
        '.' :: (natRender m).drop ((natRender m).length - k))) := by
    rw [hkey]
    exact splitSign_signStr_digit neg d hd _
  have hall_take : ∀ ch ∈ (natRender m).take ((natRender m).length - k),
      (pyIntDigitVal ch).isSome = true :=
    fun ch h => natRender_all_digit m ch (List.mem_of_mem_take h)
  have hall_drop : ∀ ch ∈ (natRender m).drop ((natRender m).length - k),
      (pyIntDigitVal ch).isSome = true :=
    fun ch h => natRender_all_digit m ch (List.mem_of_mem_drop h)
  have hlen_take : ((natRender m).take ((natRender m).length - k)).length =
      (natRender m).length - k := by
    rw [List.length_take]
    omega
  have hlen_drop : ((natRender m).drop ((natRender m).length - k)).length = k := by
    rw [List.length_drop]
    omega
  have hdig1 : takeDigs ((natRender m).take ((natRender m).length - k) ++
      '.' :: (natRender m).drop ((natRender m).length - k)) 0 0 =
      (valOfD ((natRender m).take ((natRender m).length - k)) 0,
        (natRender m).length - k,
        '.' :: (natRender m).drop ((natRender m).length - k)) := by
    rw [takeDigs_digits_append _ hall_take 0 0]
    rw [takeDigs_cons_nondigit '.' _ _ _ dot_nondigit, hlen_take]
    simp
  have hfrac : takeDigs ((natRender m).drop ((natRender m).length - k)) 0 0 =
      (valOfD ((natRender m).drop ((natRender m).length - k)) 0, k, []) := by
    rw [takeDigs_full _ hall_drop 0 0, hlen_drop]
    simp
  have hmant : valOfD ((natRender m).take ((natRender m).length - k)) 0 * 10 ^ k +
      valOfD ((natRender m).drop ((natRender m).length - k)) 0 = m := by
    have hsplitv : valOfD ((natRender m).take ((natRender m).length - k) ++
        (natRender m).drop ((natRender m).length - k)) 0 = m := by
      rw [List.take_append_drop]
      exact valOfD_natRender m
    rw [valOfD_append] at hsplitv
    rw [valOfD_linear _ (valOfD ((natRender m).take ((natRender m).length - k)) 0),
      hlen_drop] at hsplitv
    exact hsplitv
  simp only [pyFloatParse, hsign]
  rw [show digitChar d :: (cs.take ((natRender m).length - k - 1) ++
      '.' :: (natRender m).drop ((natRender m).length - k)) =
      (natRender m).take ((natRender m).length - k) ++
      '.' :: (natRender m).drop ((natRender m).length - k) by rw [htake]; simp]
  rw [hdig1]
  simp only [if_pos rfl, hfrac]
  rw [if_neg (show ¬ ((natRender m).length - k + k = 0) from by omega)]
  simp [parseExp, hmant]

theorem parse_fixed_tiny (neg : Bool) (m k : ℕ)
    (hkn : (natRender m).length ≤ k) :
    pyFloatParse (signStr neg ++ S "0." ++
      List.replicate (k - (natRender m).length) '0' ++ natRender m) =
      some (neg, m, -(k : ℤ)) := by
  have h0d : digitChar 0 = '0' := by decide
  have hkey : signStr neg ++ S "0." ++
      List.replicate (k - (natRender m).length) '0' ++ natRender m =
      signStr neg ++ digitChar 0 ::
        ('.' :: (List.replicate (k - (natRender m).length) '0' ++ natRender m)) := by
    rw [h0d]
    simp [S]
  have hsign : splitSign (signStr neg ++ S "0." ++
      List.replicate (k - (natRender m).length) '0' ++ natRender m) =
      (neg, digitChar 0 ::
        ('.' :: (List.replicate (k - (natRender m).length) '0' ++ natRender m))) := by
    rw [hkey]
    exact splitSign_signStr_digit neg 0 (by omega) _
  have hall : ∀ ch ∈ List.replicate (k - (natRender m).length) '0' ++ natRender m,
      (pyIntDigitVal ch).isSome = true := by
    intro ch hch
    rcases List.mem_append.mp hch with h | h
    · exact zeros_all_digit _ ch h
    · exact natRender_all_digit m ch h
  have hfrac : takeDigs
      (List.replicate (k - (natRender m).length) '0' ++ natRender m) 0 0 =
      (m, k, []) := by
    rw [takeDigs_full _ hall 0 0, valOfD_append, valOfD_zeros]
    have hz : (0 : ℕ) * 10 ^ (k - (natRender m).length) = 0 := by ring
    rw [hz, valOfD_natRender]
    simp
    omega
  have hzero : pyIntDigitVal '0' = some 0 := by decide
  simp only [pyFloatParse, hsign]
  rw [show takeDigs (digitChar 0 ::
      ('.' :: (List.replicate (k - (natRender m).length) '0' ++ natRender m))) 0 0 =
      (0, 1, '.' :: (List.replicate (k - (natRender m).length) '0' ++ natRender m))
    from by rw [h0d]; simp [takeDigs, hzero, dot_nondigit]]
  simp only [if_pos rfl, hfrac]
  rw [if_neg (show ¬ (1 + k = 0) from by omega)]
  simp [parseExp]

theorem expDigits_all_digit (E : ℕ) :
    ∀ ch ∈ expDigits E, (pyIntDigitVal ch).isSome = true := by
  intro ch hch
  by_cases h10 : E < 10
  · simp only [expDigits, if_pos h10] at hch
    rcases List.mem_cons.mp hch with h | h
    · rw [h]; decide
    · exact natRender_all_digit E ch h
  · simp only [expDigits, if_neg h10] at hch
    exact natRender_all_digit E ch hch

theorem valOfD_expDigits (E : ℕ) : valOfD (expDigits E) 0 = E := by
  by_cases h10 : E < 10
  · simp only [expDigits, if_pos h10]
    show valOfD (natRender E) (10 * 0 + (pyIntDigitVal '0').getD 0) = E
    have hz : 10 * 0 + (pyIntDigitVal '0').getD 0 = 0 := by decide
    rw [hz, valOfD_natRender]
  · simp only [expDigits, if_neg h10]
    exact valOfD_natRender E

theorem expDigits_len_pos (E : ℕ) : (expDigits E).length ≠ 0 := by
  by_cases h10 : E < 10
  · simp [expDigits, if_pos h10]
  · obtain ⟨d, cs, _, hds⟩ := natRender_head E
    simp [expDigits, if_neg h10, hds]

theorem parse_expPart (eneg : Bool) (E : ℕ) :
    parseExp ('e' :: ((if eneg then ['-'] else ['+']) ++ expDigits E)) =
      some (if eneg then -(E : ℤ) else (E : ℤ)) := by
  have hsign : splitSign ((if eneg then ['-'] else ['+']) ++ expDigits E) =
      (eneg, expDigits E) := by
    cases eneg with
    | true => simp [splitSign]
    | false => simp [splitSign]
  have hdigs : takeDigs (expDigits E) 0 0 = (E, (expDigits E).length, []) := by
    rw [takeDigs_full _ (expDigits_all_digit E) 0 0, valOfD_expDigits]
    simp
  simp only [parseExp, hsign, hdigs]
  simp [expDigits_len_pos E]

theorem parse_sci_one (neg eneg : Bool) (d E : ℕ) (hd : d < 10) :
    pyFloatParse (signStr neg ++ [digitChar d] ++
      'e' :: ((if eneg then ['-'] else ['+']) ++ expDigits E)) =
      some (neg, d, if eneg then -(E : ℤ) else (E : ℤ)) := by
  have hkey : signStr neg ++ [digitChar d] ++
      'e' :: ((if eneg then ['-'] else ['+']) ++ expDigits E) =
      signStr neg ++ digitChar d ::
        ('e' :: ((if eneg then ['-'] else ['+']) ++ expDigits E)) := by
    simp
  have hsign : splitSign (signStr neg ++ [digitChar d] ++
      'e' :: ((if eneg then ['-'] else ['+']) ++ expDigits E)) =
      (neg, digitChar d ::
        ('e' :: ((if eneg then ['-'] else ['+']) ++ expDigits E))) := by
    rw [hkey]
    exact splitSign_signStr_digit neg d hd _
  have hval := (digit_facts d hd).1
  have hdigs : takeDigs (digitChar d ::
      ('e' :: ((if eneg then ['-'] else ['+']) ++ expDigits E))) 0 0 =
      (d, 1, 'e' :: ((if eneg then ['-'] else ['+']) ++ expDigits E)) := by
    simp [takeDigs, hval, e_nondigit]
  have hne : ('e' : Char) ≠ '.' := by decide
  simp only [pyFloatParse, hsign, hdigs]
  rw [if_neg hne, if_neg (by omega : ¬ (1 = 0)), parse_expPart]

theorem parse_sci_many (neg eneg : Bool) (m E d : ℕ) (cs : Str)
    (hd : d < 10) (hds : natRender m = digitChar d :: cs) :
    pyFloatParse (signStr neg ++ (digitChar d :: '.' :: cs) ++
      'e' :: ((if eneg then ['-'] else ['+']) ++ expDigits E)) =
      some (neg, m, (if eneg then -(E : ℤ) else (E : ℤ)) - cs.length) := by
  have hall_cs : ∀ ch ∈ cs, (pyIntDigitVal ch).isSome = true := by
    intro ch hch
    exact natRender_all_digit m ch (by rw [hds]; exact List.mem_cons_of_mem _ hch)
  have hkey : signStr neg ++ (digitChar d :: '.' :: cs) ++
      'e' :: ((if eneg then ['-'] else ['+']) ++ expDigits E) =
      signStr neg ++ digitChar d ::
        ('.' :: (cs ++ 'e' :: ((if eneg then ['-'] else ['+']) ++ expDigits E))) := by
    simp
  have hsign : splitSign (signStr neg ++ (digitChar d :: '.' :: cs) ++
      'e' :: ((if eneg then ['-'] else ['+']) ++ expDigits E)) =
      (neg, digitChar d ::
        ('.' :: (cs ++ 'e' :: ((if eneg then ['-'] else ['+']) ++ expDigits E)))) := by
    rw [hkey]
    exact splitSign_signStr_digit neg d hd _
  have hval := (digit_facts d hd).1
  have hdigs : takeDigs (digitChar d ::
      ('.' :: (cs ++ 'e' :: ((if eneg then ['-'] else ['+']) ++ expDigits E)))) 0 0 =
      (d, 1, '.' :: (cs ++ 'e' :: ((if eneg then ['-'] else ['+']) ++ expDigits E))) := by
    simp [takeDigs, hval, dot_nondigit]
  have hfrac : takeDigs (cs ++ 'e' :: ((if eneg then ['-'] else ['+']) ++ expDigits E)) 0 0 =
      (valOfD cs 0, cs.length, 'e' :: ((if eneg then ['-'] else ['+']) ++ expDigits E)) := by
    rw [takeDigs_digits_append cs hall_cs 0 0]
    rw [takeDigs_cons_nondigit 'e' _ _ _ e_nondigit]
    simp
  have hmant : d * 10 ^ cs.length + valOfD cs 0 = m := by
    have h1 : valOfD (natRender m) 0 = m := valOfD_natRender m
    rw [hds] at h1
    have h2 : valOfD (digitChar d :: cs) 0 = valOfD cs d := by
      show valOfD cs (10 * 0 + (pyIntDigitVal (digitChar d)).getD 0) = _
      rw [hval]
      simp
    rw [h2, valOfD_linear cs d] at h1
    exact h1
  simp only [pyFloatParse, hsign, hdigs, hfrac, if_true, parse_expPart]
  rw [if_neg (by omega : ¬ (1 + cs.length = 0))]
  simp [hmant]

theorem reprCore_sci (neg : Bool) (M : ℕ) (P : ℤ) (h0 : M ≠ 0)
    (hrange : ¬ (-4 ≤ P + ((natRender M).length : ℤ) - 1 ∧
      P + ((natRender M).length : ℤ) - 1 < 16)) :
    reprCore neg M P = signStr neg ++
      (match natRender M with
        | [d1] => [d1]
        | d1 :: rest => d1 :: '.' :: rest
        | [] => natRender M) ++ 'e' ::
        ((if P + ((natRender M).length : ℤ) - 1 < 0 then ['-'] else ['+']) ++
          expDigits (P + ((natRender M).length : ℤ) - 1).natAbs) := by
  simp only [reprCore, if_neg h0, if_neg hrange]

theorem parse_reprCore (neg : Bool) (M : ℕ) (P : ℤ)
    (h0 : M ≠ 0) (h10 : M % 10 ≠ 0) :
    ∃ q r, pyFloatParse (reprCore neg M P) = some (neg, q, r) ∧
      normLitPair q r = (M, P) := by
  by_cases hrange : -4 ≤ P + ((natRender M).length : ℤ) - 1 ∧
      P + ((natRender M).length : ℤ) - 1 < 16
  · by_cases hP : 0 ≤ P
    · have hout : reprCore neg M P =
          signStr neg ++ natRender M ++ List.replicate P.toNat '0' ++ S ".0" := by
        simp only [reprCore, if_neg h0, if_pos hrange, if_pos hP]
      refine ⟨M * 10 ^ (P.toNat + 1), -1, ?_, ?_⟩
      · rw [hout]; exact parse_fixed_nonneg neg M P.toNat
      · have hx0 : M * 10 ^ (P.toNat + 1) ≠ 0 := by positivity
        simp only [normLitPair, if_neg hx0, stripTens_mul_pow M h0 h10 (P.toNat + 1)]
        have hPv : (-1 : ℤ) + ((P.toNat : ℕ) + 1 : ℕ) = P := by
          push_cast
          omega
        rw [hPv]
    · by_cases hk : (-P).toNat < (natRender M).length
      · have hout : reprCore neg M P = signStr neg ++
            (natRender M).take ((natRender M).length - (-P).toNat) ++
            '.' :: (natRender M).drop ((natRender M).length - (-P).toNat) := by
          simp only [reprCore, if_neg h0, if_pos hrange, if_neg hP, if_pos hk]
        refine ⟨M, -((-P).toNat : ℤ), ?_, ?_⟩
        · rw [hout]
          exact parse_fixed_small neg M (-P).toNat (by omega) hk
        · simp only [normLitPair, if_neg h0, stripTens_not_dvd M h0 h10]
          have hPv : -((-P).toNat : ℤ) + (0 : ℕ) = P := by
            push_cast
            omega
          rw [hPv]
      · have hout : reprCore neg M P = signStr neg ++ S "0." ++
            List.replicate ((-P).toNat - (natRender M).length) '0' ++ natRender M := by
          simp only [reprCore, if_neg h0, if_pos hrange, if_neg hP, if_neg hk]
        refine ⟨M, -((-P).toNat : ℤ), ?_, ?_⟩
        · rw [hout]
          exact parse_fixed_tiny neg M (-P).toNat (by omega)
        · simp only [normLitPair, if_neg h0, stripTens_not_dvd M h0 h10]
          have hPv : -((-P).toNat : ℤ) + (0 : ℕ) = P := by
            push_cast
            omega
          rw [hPv]
  · obtain ⟨d, cs, hd, hds⟩ := natRender_head M
    rw [reprCore_sci neg M P h0 hrange]
    cases cs with
    | nil =>
      have hdM : d = M := by
        have hv := valOfD_natRender M
        rw [hds] at hv
        simpa [valOfD, (digit_facts d hd).1] using hv
      rw [hds]
      rw [show (([digitChar d] : Str)).length = 1 from rfl]
      by_cases hneg : P + ((1 : ℕ) : ℤ) - 1 < 0
      · rw [if_pos hneg]
        have hlem := parse_sci_one neg true d (P + ((1 : ℕ) : ℤ) - 1).natAbs hd
        have e1 : (if (true : Bool) then (['-'] : Str) else ['+']) = ['-'] := rfl
        have e2 : (if (true : Bool)
            then (-((P + ((1 : ℕ) : ℤ) - 1).natAbs : ℤ))
            else ((P + ((1 : ℕ) : ℤ) - 1).natAbs : ℤ)) =
            -((P + ((1 : ℕ) : ℤ) - 1).natAbs : ℤ) := rfl
        rw [e1, e2] at hlem
        refine ⟨d, -((P + ((1 : ℕ) : ℤ) - 1).natAbs : ℤ), hlem, ?_⟩
        have hq0 : d ≠ 0 := by rw [hdM]; exact h0
        have hq10 : d % 10 ≠ 0 := by rw [hdM]; exact h10
        simp only [normLitPair, if_neg hq0, stripTens_not_dvd d hq0 hq10]
        rw [hdM]
        congr 1
        omega
      · rw [if_neg hneg]
        have hlem := parse_sci_one neg false d (P + ((1 : ℕ) : ℤ) - 1).natAbs hd
        have e1 : (if (false : Bool) then (['-'] : Str) else ['+']) = ['+'] := rfl
        have e2 : (if (false : Bool)
            then (-((P + ((1 : ℕ) : ℤ) - 1).natAbs : ℤ))
            else ((P + ((1 : ℕ) : ℤ) - 1).natAbs : ℤ)) =
            ((P + ((1 : ℕ) : ℤ) - 1).natAbs : ℤ) := rfl
        rw [e1, e2] at hlem
        refine ⟨d, ((P + ((1 : ℕ) : ℤ) - 1).natAbs : ℤ), hlem, ?_⟩
        have hq0 : d ≠ 0 := by rw [hdM]; exact h0
        have hq10 : d % 10 ≠ 0 := by rw [hdM]; exact h10
        simp only [normLitPair, if_neg hq0, stripTens_not_dvd d hq0 hq10]
        rw [hdM]
        congr 1
        omega
    | cons c2 cs2 =>
      rw [hds]
      rw [show ((digitChar d :: c2 :: cs2 : Str)).length = cs2.length + 2 from by simp]
      have hn : (natRender M).length = cs2.length + 2 := by rw [hds]; simp
      by_cases hneg : P + ((cs2.length + 2 : ℕ) : ℤ) - 1 < 0
      · rw [if_pos hneg]
        have hlem := parse_sci_many neg true M
          (P + ((cs2.length + 2 : ℕ) : ℤ) - 1).natAbs d (c2 :: cs2) hd hds
        have e1 : (if (true : Bool) then (['-'] : Str) else ['+']) = ['-'] := rfl
        have e2 : (if (true : Bool)
            then (-((P + ((cs2.length + 2 : ℕ) : ℤ) - 1).natAbs : ℤ))
            else ((P + ((cs2.length + 2 : ℕ) : ℤ) - 1).natAbs : ℤ)) =
            -((P + ((cs2.length + 2 : ℕ) : ℤ) - 1).natAbs : ℤ) := rfl
        rw [e1, e2] at hlem
        refine ⟨M, -((P + ((cs2.length + 2 : ℕ) : ℤ) - 1).natAbs : ℤ) -
          (((c2 :: cs2 : Str)).length : ℤ), hlem, ?_⟩
        simp only [normLitPair, if_neg h0, stripTens_not_dvd M h0 h10]
        congr 1
        simp only [List.length_cons]
        omega
      · rw [if_neg hneg]
        have hlem := parse_sci_many neg false M
          (P + ((cs2.length + 2 : ℕ) : ℤ) - 1).natAbs d (c2 :: cs2) hd hds
        have e1 : (if (false : Bool) then (['-'] : Str) else ['+']) = ['+'] := rfl
        have e2 : (if (false : Bool)
            then (-((P + ((cs2.length + 2 : ℕ) : ℤ) - 1).natAbs : ℤ))
            else ((P + ((cs2.length + 2 : ℕ) : ℤ) - 1).natAbs : ℤ)) =
            ((P + ((cs2.length + 2 : ℕ) : ℤ) - 1).natAbs : ℤ) := rfl
        rw [e1, e2] at hlem
        refine ⟨M, ((P + ((cs2.length + 2 : ℕ) : ℤ) - 1).natAbs : ℤ) -
          (((c2 :: cs2 : Str)).length : ℤ), hlem, ?_⟩
        simp only [normLitPair, if_neg h0, stripTens_not_dvd M h0 h10]
        congr 1
        simp only [List.length_cons]
        omega

theorem expDigits_clean (E : ℕ) : ∀ c ∈ expDigits E,
    commaNbspFix c = c ∧ isPySpace c = false := by
  intro c hc
  by_cases h10 : E < 10
  · simp only [expDigits, if_pos h10, List.mem_cons] at hc
    rcases hc with h | h
    · subst h; decide
    · exact natRender_clean E c h
  · simp only [expDigits, if_neg h10] at hc
    exact natRender_clean E c hc

theorem reprCore_clean (neg : Bool) (M : ℕ) (P : ℤ) :
    ∀ c ∈ reprCore neg M P, commaNbspFix c = c ∧ isPySpace c = false := by
  intro c hc
  by_cases h0 : M = 0
  · simp only [reprCore, if_pos h0, S, List.mem_append] at hc
    rcases hc with h | h
    · exact signStr_clean neg c h
    · fin_cases h <;> decide
  · by_cases hrange : -4 ≤ P + ((natRender M).length : ℤ) - 1 ∧
        P + ((natRender M).length : ℤ) - 1 < 16
    · by_cases hP : 0 ≤ P
      · simp only [reprCore, if_neg h0, if_pos hrange, if_pos hP, S,
          List.append_assoc, List.mem_append] at hc
        rcases hc with h | h | h | h
        · exact signStr_clean neg c h
        · exact natRender_clean M c h
        · rw [List.eq_of_mem_replicate h]; decide
        · fin_cases h <;> decide
      · by_cases hk : (-P).toNat < (natRender M).length
        · simp only [reprCore, if_neg h0, if_pos hrange, if_neg hP, if_pos hk,
            List.append_assoc, List.mem_append, List.mem_cons] at hc
          rcases hc with h | h | h | h
          · exact signStr_clean neg c h
          · exact natRender_clean M c (List.mem_of_mem_take h)
          · subst h; decide
          · exact natRender_clean M c (List.mem_of_mem_drop h)
        · have hout : reprCore neg M P = signStr neg ++ S "0." ++
              List.replicate ((-P).toNat - (natRender M).length) '0' ++ natRender M := by
            simp only [reprCore, if_neg h0, if_pos hrange, if_neg hP, if_neg hk]
          rw [hout] at hc
          rcases List.mem_append.mp hc with h | h
          · rcases List.mem_append.mp h with h | h
            · rcases List.mem_append.mp h with h | h
              · exact signStr_clean neg c h
              · have h' : c ∈ ['0', '.'] := h
                fin_cases h' <;> decide
            · rw [List.eq_of_mem_replicate h]; decide
          · exact natRender_clean M c h
    · obtain ⟨d, cs, hd, hds⟩ := natRender_head M
      rw [reprCore_sci neg M P h0 hrange, hds] at hc
      cases cs with
      | nil =>
        have hc' : c ∈ signStr neg ++ [digitChar d] ++ 'e' ::
            ((if P + ((([digitChar d] : Str)).length : ℤ) - 1 < 0
              then ['-'] else ['+']) ++
              expDigits (P + ((([digitChar d] : Str)).length : ℤ) - 1).natAbs) := hc
        rcases List.mem_append.mp hc' with h | h
        · rcases List.mem_append.mp h with h | h
          · exact signStr_clean neg c h
          · rw [List.mem_singleton] at h
            subst h; exact goodF_digit d hd
        · rcases List.mem_cons.mp h with h | h
          · subst h; decide
          · rcases List.mem_append.mp h with h | h
            · split at h <;>
                (simp only [List.mem_singleton] at h; subst h; decide)
            · exact expDigits_clean _ c h
      | cons c2 cs2 =>
        have hc' : c ∈ signStr neg ++ (digitChar d :: '.' :: c2 :: cs2) ++ 'e' ::
            ((if P + (((digitChar d :: c2 :: cs2 : Str)).length : ℤ) - 1 < 0
              then ['-'] else ['+']) ++
              expDigits
                (P + (((digitChar d :: c2 :: cs2 : Str)).length : ℤ) - 1).natAbs) := hc
        rcases List.mem_append.mp hc' with h | h
        · rcases List.mem_append.mp h with h | h
          · exact signStr_clean neg c h
          · rcases List.mem_cons.mp h with h | h
            · subst h; exact goodF_digit d hd
            · rcases List.mem_cons.mp h with h | h
              · subst h; decide
              · refine natRender_clean M c ?_
                rw [hds]
                exact List.mem_cons_of_mem _ h
        · rcases List.mem_cons.mp h with h | h
          · subst h; decide
          · rcases List.mem_append.mp h with h | h
            · split at h <;>
                (simp only [List.mem_singleton] at h; subst h; decide)
            · exact expDigits_clean _ c h

theorem parse_reprZero (neg : Bool) :
    pyFloatParse (reprCore neg 0 0) = some (neg, 0, -1) := by
  have hshape : reprCore neg 0 0 =
      signStr neg ++ natRender 0 ++ List.replicate 0 '0' ++ S ".0" := by
    rw [natRender_lt 0 (by omega)]
    rw [show digitChar 0 = '0' from by decide]
    simp only [reprCore, if_pos rfl]
    simp [S]
  rw [hshape]
  have := parse_fixed_nonneg neg 0 0
  simpa using this

theorem repr_renorm (neg : Bool) (m : ℕ) (p : ℤ) :
    normalize_float_value (some (pyReprFloat neg m p)) false = pyReprFloat neg m p := by
  have hMP : pyReprFloat neg m p =
      reprCore neg (normLitPair m p).1 (normLitPair m p).2 := rfl
  have hclean : pyCleanF (pyReprFloat neg m p) = pyReprFloat neg m p :=
    pyCleanF_id_of _ (by rw [hMP]; exact reprCore_clean neg _ _)
  by_cases h0 : m = 0
  · have hz : normLitPair m p = (0, 0) := by simp [normLitPair, h0]
    have hparse : pyFloatParse (pyReprFloat neg m p) = some (neg, 0, -1) := by
      rw [hMP, hz]
      exact parse_reprZero neg
    simp only [normalize_float_value, hclean, hparse, Bool.false_eq_true, if_false]
    rw [hMP, hz]
    show reprCore neg (normLitPair 0 (-1)).1 (normLitPair 0 (-1)).2 = _
    norm_num [normLitPair]
  · have h1 : (normLitPair m p).1 ≠ 0 := by
      simp only [normLitPair, if_neg h0]
      exact (stripTens_spec m h0).1
    have h2 : (normLitPair m p).1 % 10 ≠ 0 := by
      simp only [normLitPair, if_neg h0]
      exact (stripTens_spec m h0).2.1
    obtain ⟨q, r, hparse, hnorm⟩ :=
      parse_reprCore neg (normLitPair m p).1 (normLitPair m p).2 h1 h2
    have hparse' : pyFloatParse (pyReprFloat neg m p) = some (neg, q, r) := by
      rw [hMP]; exact hparse
    simp only [normalize_float_value, hclean, hparse', Bool.false_eq_true, if_false]
    rw [hMP]
    show reprCore neg (normLitPair q r).1 (normLitPair q r).2 = _
    rw [hnorm]

theorem numstr_idem (s : Str) :
    normalize_numeric_string (some (normalize_numeric_string (some s))) =
      normalize_numeric_string (some s) := by
  by_cases hcond : pyClean s ≠ [] ∧ (pyClean s).all pyIsDigitChar
  · cases hp : pyIntParse (pyClean s) with
    | some n =>
      have hout : normalize_numeric_string (some s) = natRender n := by
        simp only [normalize_numeric_string, if_pos hcond, hp]
      rw [hout]
      have hcl : pyClean (natRender n) = natRender n :=
        pyClean_id_of _ (fun c hc => by
          obtain ⟨d, hd, rfl⟩ := natRender_mem n c hc
          exact ⟨(digit_facts d hd).2.2.1, (digit_facts d hd).2.1⟩)
      have hne : natRender n ≠ [] := by
        obtain ⟨d, cs, hd, hds⟩ := natRender_head n
        rw [hds]; simp
      have hall : (natRender n).all pyIsDigitChar = true := by
        rw [List.all_eq_true]
        intro c hc
        obtain ⟨d, hd, rfl⟩ := natRender_mem n c hc
        exact (digit_facts d hd).2.2.2.2.2.2.2.2.2
      have hparse : pyIntParse (natRender n) = some n := by
        show (natRender n).foldl _ (some 0) = some n
        rw [pyIntParse_digits _ (natRender_all_digit n) 0, valOfD_natRender]
      simp only [normalize_numeric_string, hcl]
      rw [if_pos ⟨hne, hall⟩, hparse]
    | none =>
      have hout : normalize_numeric_string (some s) = pyClean s := by
        simp only [normalize_numeric_string, if_pos hcond, hp]
      rw [hout]
      simp only [normalize_numeric_string, pyClean_idem s]
      rw [if_pos hcond, hp]
  · have hout : normalize_numeric_string (some s) = pyClean s := by
      simp only [normalize_numeric_string, if_neg hcond]
    rw [hout]
    simp only [normalize_numeric_string, pyClean_idem s]
    rw [if_neg hcond]

theorem floatTwo_idem (s : Str) :
    normalize_float_value (some (normalize_float_value (some s) true)) true =
      normalize_float_value (some s) true := by
  cases hp : pyFloatParse (pyCleanF s) with
  | some v =>
    obtain ⟨neg, m, p⟩ := v
    have hout : normalize_float_value (some s) true = formatTwo neg m p := by
      simp only [normalize_float_value, hp, if_pos]
    rw [hout]
    exact formatTwo_renorm neg m p
  | none =>
    have hout : normalize_float_value (some s) true = pyCleanF s := by
      simp only [normalize_float_value, hp]
    rw [hout]
    simp only [normalize_float_value, pyCleanF_idem s, hp]

theorem floatRepr_idem (s : Str) :
    normalize_float_value (some (normalize_float_value (some s) false)) false =
      normalize_float_value (some s) false := by
  cases hp : pyFloatParse (pyCleanF s) with
  | some v =>
    obtain ⟨neg, m, p⟩ := v
    have hout : normalize_float_value (some s) false = pyReprFloat neg m p := by
      simp only [normalize_float_value, hp, Bool.false_eq_true, if_false]
    rw [hout]
    exact repr_renorm neg m p
  | none =>
    have hout : normalize_float_value (some s) false = pyCleanF s := by
      simp only [normalize_float_value, hp]
    rw [hout]
    simp only [normalize_float_value, pyCleanF_idem s, hp]

theorem bool_idem (s : Str) :
    normalize_boolean_value (some (normalize_boolean_value (some s))) =
      normalize_boolean_value (some s) := by
  by_cases h : (pyClean s).map pyLowerChar ∈ boolTrueWords
  · have hout : normalize_boolean_value (some s) = S "true" := by
      simp only [normalize_boolean_value, if_pos h]
    rw [hout]
    decide
  · have hout : normalize_boolean_value (some s) = S "false" := by
      simp only [normalize_boolean_value, if_neg h]
    rw [hout]
    decide

theorem serie_novos_idem (s : Str) :
    normalize_serie_nfts_novos (some (normalize_serie_nfts_novos (some s))) =
      normalize_serie_nfts_novos (some s) := by
  show normalize_serie_nfts_novos (some (pyClean s)) = pyClean s
  exact pyClean_idem s

theorem normKindNovos_idem (kind : String) (s : Str) :
    normKindNovos kind (normKindNovos kind s) = normKindNovos kind s := by
  by_cases h1 : kind = "num_str"
  · simp only [normKindNovos, if_pos h1]
    exact numstr_idem s
  by_cases h2 : kind = "float_currency"
  · simp only [normKindNovos, if_neg h1, if_pos h2]
    exact floatTwo_idem s
  by_cases h3 : kind = "float"
  · simp only [normKindNovos, if_neg h1, if_neg h2, if_pos h3]
    exact floatRepr_idem s
  by_cases h4 : kind = "bool"
  · simp only [normKindNovos, if_neg h1, if_neg h2, if_neg h3, if_pos h4]
    exact bool_idem s
  by_cases h5 : kind = "serie"
  · simp only [normKindNovos, if_neg h1, if_neg h2, if_neg h3, if_neg h4, if_pos h5]
    exact serie_novos_idem s
  · simp only [normKindNovos, if_neg h1, if_neg h2, if_neg h3, if_neg h4, if_neg h5]
    exact pyClean_idem s

theorem findChildL_none_of (t : String) :
    ∀ l : List XElem, (∀ e ∈ l, e.tag ≠ t) → findChildL t l = none := by
  intro l
  induction l with
  | nil => intro _; rfl
  | cons c rest ih =>
    intro h
    have hc : c.tag ≠ t := h c (List.mem_cons_self c rest)
    simp only [findChildL, if_neg hc]
    exact ih (fun e he => h e (List.mem_cons_of_mem c he))

theorem findChildL_skip (t : String) (pre : List XElem)
    (h : ∀ e ∈ pre, e.tag ≠ t) (l : List XElem) :
    findChildL t (pre ++ l) = findChildL t l := by
  induction pre with
  | nil => rfl
  | cons c rest ih =>
    have hc : c.tag ≠ t := h c (List.mem_cons_self c rest)
    show findChildL t (c :: (rest ++ l)) = _
    simp only [findChildL, if_neg hc]
    exact ih (fun e he => h e (List.mem_cons_of_mem c he))

theorem buildOne_tags (norm : String → Str → Str) (d : SchemaDef) (u : XElem)
    (t : String) : ∀ e ∈ buildOne norm u t d, e.tag = t := by
  match d with
  | .leaf kind =>
    intro e he
    cases hf : find_child u t with
    | none => simp only [buildOne, hf] at he; exact absurd he (List.not_mem_nil e)
    | some c =>
      simp only [buildOne, hf] at he
      by_cases hfin : norm kind (textD c) = []
      · rw [if_pos hfin] at he; exact absurd he (List.not_mem_nil e)
      · rw [if_neg hfin, List.mem_singleton] at he
        rw [he]
        rfl
  | .group sub =>
    intro e he
    cases hf : find_child u t with
    | none => simp only [buildOne, hf] at he; exact absurd he (List.not_mem_nil e)
    | some c =>
      simp only [buildOne, hf] at he
      by_cases hemp : (buildEntries norm c sub).isEmpty
      · rw [if_pos hemp] at he; exact absurd he (List.not_mem_nil e)
      · rw [if_neg hemp, List.mem_singleton] at he
        rw [he]
        rfl

theorem buildEntries_tags (norm : String → Str → Str) :
    ∀ (es : SchemaEntries) (u : XElem),
      ∀ e ∈ buildEntries norm u es, e.tag ∈ namesOf es
  | .nil, u => by intro e he; exact absurd he (List.not_mem_nil e)
  | .cons t d rest, u => by
    intro e he
    simp only [buildEntries, List.mem_append] at he
    rcases he with h | h
    · rw [buildOne_tags norm d u t e h]
      exact List.mem_cons_self t (namesOf rest)
    · exact List.mem_cons_of_mem t (buildEntries_tags norm rest u e h)

mutual
theorem reparseOne (norm : String → Str → Str)
    (hnorm : ∀ k s, norm k (norm k s) = norm k s)
    (d : SchemaDef) (u : XElem) (t tg : String) (tx : Option Str)
    (pre post : List XElem) (hwf : wfDef d = true)
    (hpre : ∀ e ∈ pre, e.tag ≠ t) (hpost : ∀ e ∈ post, e.tag ≠ t) :
    buildOne norm (XElem.node tg tx (pre ++ (buildOne norm u t d ++ post))) t d =
      buildOne norm u t d := by
  have hprepost : ∀ e ∈ pre ++ post, e.tag ≠ t := by
    intro e he
    rcases List.mem_append.mp he with h | h
    · exact hpre e h
    · exact hpost e h
  match d with
  | .leaf kind =>
    cases hf : find_child u t with
    | none =>
      have hb : buildOne norm u t (.leaf kind) = [] := by
        simp only [buildOne, hf]
      rw [hb]
      have hfc : find_child (XElem.node tg tx (pre ++ ([] ++ post))) t = none := by
        simp only [find_child, XElem.children, List.nil_append]
        exact findChildL_none_of t _ hprepost
      simp only [buildOne, hfc]
    | some c =>
      by_cases hfin : norm kind (textD c) = []
      · have hb : buildOne norm u t (.leaf kind) = [] := by
          simp only [buildOne, hf, if_pos hfin]
        rw [hb]
        have hfc : find_child (XElem.node tg tx (pre ++ ([] ++ post))) t = none := by
          simp only [find_child, XElem.children, List.nil_append]
          exact findChildL_none_of t _ hprepost
        simp only [buildOne, hfc]
      · have hb : buildOne norm u t (.leaf kind) =
            [XElem.node t (some (norm kind (textD c))) []] := by
          simp only [buildOne, hf, if_neg hfin]
        rw [hb]
        have hfc : find_child (XElem.node tg tx
            (pre ++ ([XElem.node t (some (norm kind (textD c))) []] ++ post))) t =
            some (XElem.node t (some (norm kind (textD c))) []) := by
          simp only [find_child, XElem.children]
          rw [findChildL_skip t pre hpre]
          show findChildL t (XElem.node t (some (norm kind (textD c))) [] :: post) = _
          simp [findChildL, XElem.tag]
        simp only [buildOne, hfc]
        have htd : textD (XElem.node t (some (norm kind (textD c))) []) =
            norm kind (textD c) := rfl
        rw [htd, hnorm kind (textD c), if_neg hfin]
  | .group sub =>
    have hwfsub : wfEntries sub = true := by
      simpa only [wfDef] using hwf
    cases hf : find_child u t with
    | none =>
      have hb : buildOne norm u t (.group sub) = [] := by
        simp only [buildOne, hf]
      rw [hb]
      have hfc : find_child (XElem.node tg tx (pre ++ ([] ++ post))) t = none := by
        simp only [find_child, XElem.children, List.nil_append]
        exact findChildL_none_of t _ hprepost
      simp only [buildOne, hfc]
    | some c =>
      by_cases hemp : (buildEntries norm c sub).isEmpty
      · have hb : buildOne norm u t (.group sub) = [] := by
          simp only [buildOne, hf, if_pos hemp]
        rw [hb]
        have hfc : find_child (XElem.node tg tx (pre ++ ([] ++ post))) t = none := by
          simp only [find_child, XElem.children, List.nil_append]
          exact findChildL_none_of t _ hprepost
        simp only [buildOne, hfc]
      · have hb : buildOne norm u t (.group sub) =
            [XElem.node t none (buildEntries norm c sub)] := by
          simp only [buildOne, hf, if_neg hemp]
        rw [hb]
        have hfc : find_child (XElem.node tg tx
            (pre ++ ([XElem.node t none (buildEntries norm c sub)] ++ post))) t =
            some (XElem.node t none (buildEntries norm c sub)) := by
          simp only [find_child, XElem.children]
          rw [findChildL_skip t pre hpre]
          show findChildL t
            (XElem.node t none (buildEntries norm c sub) :: post) = _
          simp [findChildL, XElem.tag]
        simp only [buildOne, hfc]
        have hrec := reparseEntries norm hnorm sub c t none [] hwfsub
          (by intro e he; exact absurd he (List.not_mem_nil e))
        simp only [List.nil_append] at hrec
        rw [hrec, if_neg hemp]
theorem reparseEntries (norm : String → Str → Str)
    (hnorm : ∀ k s, norm k (norm k s) = norm k s)
    (es : SchemaEntries) (u : XElem) (tg : String) (tx : Option Str)
    (pre : List XElem) (hwf : wfEntries es = true)
    (hpre : ∀ e ∈ pre, ¬ e.tag ∈ namesOf es) :
    buildEntries norm (XElem.node tg tx (pre ++ buildEntries norm u es)) es =
      buildEntries norm u es := by
  match es with
  | .nil => rfl
  | .cons t d rest =>
    have hw := hwf
    simp only [wfEntries, Bool.and_eq_true, Bool.not_eq_true'] at hw
    obtain ⟨⟨hnotin, hwfd⟩, hwfrest⟩ := hw
    have hnotmem : ¬ t ∈ namesOf rest := by
      intro hmem
      have hcont : (namesOf rest).contains t = true := List.elem_iff.mpr hmem
      rw [hcont] at hnotin
      exact absurd hnotin (by decide)
    have hpre1 : ∀ e ∈ pre, e.tag ≠ t := by
      intro e he heq
      exact hpre e he (by rw [heq]; exact List.mem_cons_self t (namesOf rest))
    have hpost1 : ∀ e ∈ buildEntries norm u rest, e.tag ≠ t := by
      intro e he heq
      exact hnotmem (heq ▸ buildEntries_tags norm rest u e he)
    have hpre2 : ∀ e ∈ pre ++ buildOne norm u t d, ¬ e.tag ∈ namesOf rest := by
      intro e he
      rcases List.mem_append.mp he with h | h
      · intro hmem
        exact hpre e h (List.mem_cons_of_mem t hmem)
      · rw [buildOne_tags norm d u t e h]
        exact hnotmem
    have hA := reparseOne norm hnorm d u t tg tx pre (buildEntries norm u rest)
      hwfd hpre1 hpost1
    have hB := reparseEntries norm hnorm rest u tg tx
      (pre ++ buildOne norm u t d) hwfrest hpre2
    have hassoc : XElem.node tg tx
        ((pre ++ buildOne norm u t d) ++ buildEntries norm u rest) =
        XElem.node tg tx
        (pre ++ (buildOne norm u t d ++ buildEntries norm u rest)) := by
      rw [List.append_assoc]
    rw [hassoc] at hB
    show buildOne norm (XElem.node tg tx
        (pre ++ (buildOne norm u t d ++ buildEntries norm u rest))) t d ++
      buildEntries norm (XElem.node tg tx
        (pre ++ (buildOne norm u t d ++ buildEntries norm u rest))) rest =
      buildOne norm u t d ++ buildEntries norm u rest
    rw [hA, hB]
end

theorem canonical_reparse (norm : String → Str → Str)
    (hnorm : ∀ k s, norm k (norm k s) = norm k s)
    (es : SchemaEntries) (hwf : wfEntries es = true)
    (hA : ¬ "Assinatura" ∈ namesOf es) (n : XElem) :
    build_tpNFTS_string norm es (canonicalTpNFTS norm es n) =
      build_tpNFTS_string norm es n := by
  unfold build_tpNFTS_string canonicalTpNFTS
  have hL : removeFirst "Assinatura" (buildEntries norm (stripAssin n) es) =
      buildEntries norm (stripAssin n) es :=
    removeFirst_of_none _ _ (findChildL_none_of _ _
      (fun e he heq => hA (heq ▸ buildEntries_tags norm es (stripAssin n) e he)))
  have hstrip : stripAssin
      (XElem.node "tpNFTS" none (buildEntries norm (stripAssin n) es)) =
      XElem.node "tpNFTS" none (buildEntries norm (stripAssin n) es) := by
    show XElem.node "tpNFTS" none
      (removeFirst "Assinatura" (buildEntries norm (stripAssin n) es)) = _
    rw [hL]
  rw [hstrip]
  have hrec := reparseEntries norm hnorm es (stripAssin n) "tpNFTS" none [] hwf
    (fun e he => absurd he (List.not_mem_nil e))
  simp only [List.nil_append] at hrec
  rw [hrec]

/-- C8 counterexample: on the cited debug variant the claim fails.
Canonicalizing `serieTabUnit` (serie value `"ABCD\tE"`) emits the padded
serie `"ABCD\t"`; feeding the canonical tree back through the same builder
re-normalizes that text to `"ABCD "` (the tab is truncated into the
five-character window, then stripped and re-padded with a space), so the
second canonical bytes differ from the first: the padded serie normalizer
of `sign_xml_soap_nfts_corrigido_com_debug.py` is not idempotent on its
own output. -/
theorem claim8_counterexample :
    ¬ build_tpNFTS_bytes
        (canonicalTpNFTS normKindDebug canonical_order_map serieTabUnit) =
      build_tpNFTS_bytes serieTabUnit := by decide

/-- C8 (amended): idempotence under reparse holds for the
`sign_xml_soap_nfts_novos_campos.py` variant, whose per-kind normalizers
are all idempotent, and in general for every schema map that is
well-formed (no duplicate names, no `Assinatura` entry) paired with an
idempotent normalizer family: mapping the canonical output back into a
record-unit-shaped tree (the canonical `tpNFTS` element itself) and
canonicalizing again yields the same bytes. The debug variant's padded
serie normalizer violates the idempotence premise, and with it the claim
(see the counterexample). -/
theorem claim8_amended :
    (∀ k s, normKindNovos k (normKindNovos k s) = normKindNovos k s) ∧
    (∀ n : XElem,
      build_tpNFTS_bytes_novos
        (canonicalTpNFTS normKindNovos canonical_order_map_novos n) =
        build_tpNFTS_bytes_novos n) ∧
    (∀ norm : String → Str → Str,
      (∀ k s, norm k (norm k s) = norm k s) →
      ∀ es : SchemaEntries, wfEntries es = true →
      ¬ "Assinatura" ∈ namesOf es →
      ∀ n : XElem,
        build_tpNFTS_string norm es (canonicalTpNFTS norm es n) =
          build_tpNFTS_string norm es n) := by
  refine ⟨normKindNovos_idem, ?_, ?_⟩
  · intro n
    unfold build_tpNFTS_bytes_novos
    rw [canonical_reparse normKindNovos normKindNovos_idem
      canonical_order_map_novos (by decide) (by decide) n]
  · intro norm hn es hwf hA n
    exact canonical_reparse norm hn es hwf hA n

/-- C8 witness: the amended theorem applied at the concrete novos schema
map and the record unit of the counterexample, with the well-formedness
and no-`Assinatura` hypotheses discharged by computation: on the novos
variant even this unit reparses to identical bytes. -/
theorem claim8_witness :
    wfEntries canonical_order_map_novos = true ∧
    ¬ "Assinatura" ∈ namesOf canonical_order_map_novos ∧
    build_tpNFTS_string normKindNovos canonical_order_map_novos
      (canonicalTpNFTS normKindNovos canonical_order_map_novos serieTabUnit) =
      build_tpNFTS_string normKindNovos canonical_order_map_novos serieTabUnit :=
  ⟨by decide, by decide,
    claim8_amended.2.2 normKindNovos claim8_amended.1 canonical_order_map_novos
      (by decide) (by decide) serieTabUnit⟩
